import Mathlib

/-!
Verification of the git-ai authorship-tracking engine against its sources.

Shallow embedding conventions:
* `u32`/`usize` values are modelled as `Nat`; all line numbers produced by the
  pipeline are ≥ 1 and the subtractions performed by the code never underflow
  on such inputs, so plain `Nat` subtraction agrees with the machine value.
* Child-process invocations of `git`, the filesystem and the `similar` text
  diff library are external to the repository; their results enter the
  embedded functions as explicit parameters.
* Rust `HashMap<String, V>` values that the code only reads through `get` are
  modelled as association lists `List (String × V)` read through
  `List.lookup`.
-/

set_option linter.unusedVariables false
set_option linter.unnecessarySeqFocus false

namespace GitAi

/-! ### List helpers shared by several embedded functions -/

/-- Rust `Vec::dedup`: removes *adjacent* duplicates only. -/
def dedupAdj : List Nat → List Nat
  | [] => []
  | [a] => [a]
  | a :: b :: rest => if a = b then dedupAdj (b :: rest) else a :: dedupAdj (b :: rest)

/-- Rust `sort_unstable` on a `Vec<u32>`: modelled by insertion sort, which
computes the same (unique) weakly increasing rearrangement. -/
def sortNat (l : List Nat) : List Nat := l.insertionSort (· ≤ ·)

theorem mem_dedupAdj : ∀ (l : List Nat) (a : Nat), a ∈ dedupAdj l ↔ a ∈ l
  | [], a => by simp [dedupAdj]
  | [b], a => by simp [dedupAdj]
  | b :: c :: rest, a => by
    by_cases h : b = c
    · subst h
      rw [show dedupAdj (b :: b :: rest) = dedupAdj (b :: rest) from if_pos rfl,
        mem_dedupAdj (b :: rest) a]
      simp only [List.mem_cons]
      tauto
    · rw [show dedupAdj (b :: c :: rest) = b :: dedupAdj (c :: rest) from if_neg h]
      simp only [List.mem_cons, mem_dedupAdj (c :: rest) a]

theorem sortNat_perm (l : List Nat) : List.Perm (sortNat l) l :=
  List.perm_insertionSort _ l

theorem mem_sortNat (l : List Nat) (a : Nat) : a ∈ sortNat l ↔ a ∈ l :=
  (sortNat_perm l).mem_iff

theorem countP_sortNat (l : List Nat) (p : Nat → Bool) :
    (sortNat l).countP p = l.countP p :=
  (sortNat_perm l).countP_eq p

theorem pairwise_le_sortNat (l : List Nat) : (sortNat l).Pairwise (· ≤ ·) :=
  List.sorted_insertionSort _ l

theorem pairwise_lt_dedupAdj :
    ∀ (l : List Nat), l.Pairwise (· ≤ ·) → (dedupAdj l).Pairwise (· < ·)
  | [], _ => by simp [dedupAdj]
  | [a], _ => by simp [dedupAdj]
  | a :: b :: rest, h => by
    have htail : (b :: rest).Pairwise (· ≤ ·) := h.of_cons
    by_cases hab : a = b
    · subst hab
      simpa [dedupAdj] using pairwise_lt_dedupAdj (a :: rest) htail
    · have hab' : a < b :=
        lt_of_le_of_ne (List.rel_of_pairwise_cons h (List.mem_cons_self b rest)) hab
      simp only [dedupAdj, if_neg hab]
      refine List.Pairwise.cons ?_ (pairwise_lt_dedupAdj (b :: rest) htail)
      intro x hx
      rcases List.mem_cons.mp ((mem_dedupAdj (b :: rest) x).mp hx) with hxb | hxr
      · exact hxb ▸ hab'
      · exact hab'.trans_le (List.rel_of_pairwise_cons htail hxr)

/-- Strictly sorted after sorting and removing adjacent duplicates. -/
theorem pairwise_lt_sortedDedup (l : List Nat) :
    (dedupAdj (sortNat l)).Pairwise (· < ·) :=
  pairwise_lt_dedupAdj _ (pairwise_le_sortNat l)

theorem mem_sortedDedup (l : List Nat) (a : Nat) :
    a ∈ dedupAdj (sortNat l) ↔ a ∈ l := by
  rw [mem_dedupAdj, mem_sortNat]

/-! ### Line ranges

`authorship_log::LineRange` (compact sets of 1-based line numbers) mirrors
`working_log::Line` from `src/log_fmt/working_log.rs`: `Single(n)` or an
inclusive `Range(s, e)`. -/

inductive LineRange where
  | single (n : Nat)
  | range (s e : Nat)
deriving DecidableEq, Repr

/-- `working_log::Line::contains` from `src/log_fmt/working_log.rs`. -/
def LineRange.contains : LineRange → Nat → Bool
  | .single l, n => decide (l = n)
  | .range s e, n => decide (s ≤ n ∧ n ≤ e)

/-- Modelled from the spec: `LineRange::expand` lives in
`authorship_log.rs`, which is not among the provided sources.  A `Single(n)`
expands to `[n]`; an inclusive `Range(s, e)` expands to `s, s+1, …, e`. -/
def LineRange.expand : LineRange → List Nat
  | .single n => [n]
  | .range s e => List.range' s (e + 1 - s)

/-- Expand a list of ranges (`Vec<LineRange>`) into individual line numbers. -/
def expandRanges (rs : List LineRange) : List Nat := rs.flatMap LineRange.expand

theorem mem_range'_iff (s n a : Nat) : a ∈ List.range' s n ↔ s ≤ a ∧ a < s + n := by
  rw [List.mem_range']
  constructor
  · rintro ⟨i, hi, rfl⟩
    omega
  · intro h
    exact ⟨a - s, by omega, by omega⟩

/-- Helper for `compress_lines`: the current run is `[s, e]`. -/
def compressGo (s e : Nat) : List Nat → List LineRange
  | [] => [if s = e then .single s else .range s e]
  | n :: rest =>
    if n ≤ e + 1 then compressGo s (max e n) rest
    else (if s = e then .single s else .range s e) :: compressGo n n rest

/-- Modelled from the spec: `LineRange::compress_lines` lives in
`authorship_log.rs`, which is not among the provided sources.  Spec §3:
"Compression rule: adjacent or equal successors collapse; the result is
sorted and disjoint." -/
def LineRange.compress_lines : List Nat → List LineRange
  | [] => []
  | n :: rest => compressGo n n rest

theorem mem_expand_compressGo :
    ∀ (rest : List Nat) (s e a : Nat), s ≤ e → (e :: rest).Pairwise (· < ·) →
      (a ∈ expandRanges (compressGo s e rest) ↔ (s ≤ a ∧ a ≤ e) ∨ a ∈ rest)
  | [], s, e, a, hse, _ => by
    by_cases h : s = e <;>
      simp [expandRanges, compressGo, h, LineRange.expand, mem_range'_iff] <;>
      omega
  | n :: rest, s, e, a, hse, hchain => by
    have hen : e < n := List.rel_of_pairwise_cons hchain (List.mem_cons_self n rest)
    have htail : (n :: rest).Pairwise (· < ·) := hchain.of_cons
    by_cases hcase : n ≤ e + 1
    · have hne : n = e + 1 := by omega
      have hmax : max e n = n := by omega
      rw [show compressGo s e (n :: rest) = compressGo s (max e n) rest from if_pos hcase,
        hmax, mem_expand_compressGo rest s n a (by omega) htail]
      simp only [List.mem_cons]
      by_cases hP : a ∈ rest <;> simp only [hP, or_true, or_false] <;> omega
    · rw [show compressGo s e (n :: rest)
          = (if s = e then .single s else .range s e) :: compressGo n n rest from
          if_neg hcase]
      have hrec := mem_expand_compressGo rest n n a (le_refl n) htail
      rw [show expandRanges ((if s = e then LineRange.single s else LineRange.range s e)
            :: compressGo n n rest)
          = (if s = e then LineRange.single s else LineRange.range s e).expand
            ++ expandRanges (compressGo n n rest) from rfl]
      by_cases h : s = e <;>
        simp only [List.mem_append, h, if_pos, if_neg, ite_true, ite_false,
          LineRange.expand, mem_range'_iff, List.mem_singleton, List.mem_cons,
          List.mem_nil_iff, hrec] <;>
        by_cases hP : a ∈ rest <;> simp only [hP, or_true, or_false, or_self] <;> omega

/-- For a strictly sorted input, `compress_lines` preserves the set of lines. -/
theorem mem_expand_compress (l : List Nat) (h : l.Pairwise (· < ·)) (a : Nat) :
    a ∈ expandRanges (LineRange.compress_lines l) ↔ a ∈ l := by
  cases l with
  | nil => simp [LineRange.compress_lines, expandRanges]
  | cons n rest =>
    rw [show LineRange.compress_lines (n :: rest) = compressGo n n rest from rfl,
      mem_expand_compressGo rest n n a (le_refl n) h]
    simp only [List.mem_cons]
    by_cases hP : a ∈ rest <;> simp only [hP, or_true, or_false] <;> omega

/-- Membership after sorting, deduplicating and compressing, as the projection
code does before storing converted line numbers. -/
theorem mem_expand_compress_sortedDedup (l : List Nat) (a : Nat) :
    a ∈ expandRanges (LineRange.compress_lines (dedupAdj (sortNat l))) ↔ a ∈ l := by
  rw [mem_expand_compress _ (pairwise_lt_sortedDedup l), mem_sortedDedup]

/-! ### The authorship log and the post-commit coordinate conversion

Data model of the published per-commit attestation document (spec §6 schema;
the Rust definitions live in `authorship_log_serialization.rs`, outside the
provided sources, but `post_commit.rs` fixes the fields used here:
`attestations`, `file_path`, `entries`, `line_ranges`). -/

structure AttestationEntry where
  hash : String
  line_ranges : List LineRange
deriving Repr, DecidableEq

structure FileAttestation where
  file_path : String
  entries : List AttestationEntry
deriving Repr, DecidableEq

structure AuthorshipLog where
  attestations : List FileAttestation
deriving Repr, DecidableEq

/-- One entry's conversion step inside
`convert_authorship_log_to_commit_coordinates`
(`src/src/authorship/post_commit.rs:507-531`): expand the entry's ranges,
subtract from each working-directory line the number of unstaged lines
strictly below it, then sort, dedup and recompress. -/
def convertEntry (unstaged_lines : List Nat) (en : AttestationEntry) : AttestationEntry :=
  let entry_lines := expandRanges en.line_ranges
  let converted_lines := entry_lines.map
    (fun w => w - unstaged_lines.countP (fun l => decide (l < w)))
  if !converted_lines.isEmpty then
    { en with line_ranges := LineRange.compress_lines (dedupAdj (sortNat converted_lines)) }
  else
    { en with line_ranges := [] }

/-- Per-file body of `convert_authorship_log_to_commit_coordinates`
(`src/src/authorship/post_commit.rs:497-537`): files without unstaged hunks
are left untouched; otherwise every entry is converted and entries with no
line ranges left are removed. -/
def convertFileAttestation (unstaged_hunks : List (String × List LineRange))
    (fa : FileAttestation) : FileAttestation :=
  match unstaged_hunks.lookup fa.file_path with
  | none => fa
  | some unstaged_ranges =>
    let unstaged_lines := sortNat (expandRanges unstaged_ranges)
    let entries := (fa.entries.map (convertEntry unstaged_lines)).filter
      (fun en => !en.line_ranges.isEmpty)
    { fa with entries := entries }

/-- `convert_authorship_log_to_commit_coordinates`
(`src/src/authorship/post_commit.rs:493-544`).  File attestations with no
entries left are removed at the end. -/
def convert_authorship_log_to_commit_coordinates (log : AuthorshipLog)
    (unstaged_hunks : List (String × List LineRange)) : AuthorshipLog :=
  { attestations :=
      (log.attestations.map (convertFileAttestation unstaged_hunks)).filter
        (fun fa => !fa.entries.isEmpty) }

/-- Modelled from the spec: intersection of one attestation entry's line set
with the committed lines of its file (part of
`AuthorshipLog::filter_to_committed_lines`, see below). -/
def filterEntryToCommitted (committed_lines : List Nat) (en : AttestationEntry) :
    AttestationEntry :=
  let kept := (expandRanges en.line_ranges).filter (fun n => committed_lines.contains n)
  { en with line_ranges := LineRange.compress_lines (dedupAdj (sortNat kept)) }

/-- Modelled from the spec: per-file part of
`AuthorshipLog::filter_to_committed_lines` (see below). -/
def filterFileToCommitted (committed_hunks : List (String × List LineRange))
    (fa : FileAttestation) : FileAttestation :=
  let committed_lines := expandRanges ((committed_hunks.lookup fa.file_path).getD [])
  let entries := (fa.entries.map (filterEntryToCommitted committed_lines)).filter
    (fun en => !en.line_ranges.isEmpty)
  { fa with entries := entries }

/-- Modelled from the spec: `AuthorshipLog::filter_to_committed_lines` lives in
`authorship_log_serialization.rs`, which is not among the provided sources.
Spec §4.5 step 7: "Intersect every attestation's ranges with the set of
committed-hunk lines for that file.  Drop empty attestations and files with
no attestations." -/
def filter_to_committed_lines (log : AuthorshipLog)
    (committed_hunks : List (String × List LineRange)) : AuthorshipLog :=
  { attestations :=
      (log.attestations.map (filterFileToCommitted committed_hunks)).filter
        (fun fa => !fa.entries.isEmpty) }

/-- The published projection of the authorship log, as performed by
`post_commit` (`src/src/authorship/post_commit.rs:66-74`): first the
coordinate conversion against the unstaged hunks, then the filter to the
committed hunks. -/
def post_commit_published (log : AuthorshipLog)
    (unstaged_hunks committed_hunks : List (String × List LineRange)) : AuthorshipLog :=
  filter_to_committed_lines
    (convert_authorship_log_to_commit_coordinates log unstaged_hunks) committed_hunks

/-- All line numbers attested in `log` for file `f` under prompt hash `h`. -/
def linesFor (log : AuthorshipLog) (f h : String) : List Nat :=
  (log.attestations.filter (fun fa => fa.file_path == f)).flatMap (fun fa =>
    (fa.entries.filter (fun en => en.hash == h)).flatMap (fun en =>
      expandRanges en.line_ranges))

/-- The unstaged lines of file `f`, expanded from the unstaged hunk map. -/
def unstagedLinesFor (unstaged_hunks : List (String × List LineRange)) (f : String) :
    List Nat :=
  expandRanges ((unstaged_hunks.lookup f).getD [])

/-- All line numbers attested in one file attestation for hash `h`. -/
def entryLinesFor (fa : FileAttestation) (h : String) : List Nat :=
  (fa.entries.filter (fun en => en.hash == h)).flatMap (fun en =>
    expandRanges en.line_ranges)

theorem convertEntry_hash (U : List Nat) (en : AttestationEntry) :
    (convertEntry U en).hash = en.hash := by
  simp only [convertEntry]
  split <;> rfl

theorem mem_convertEntry (U : List Nat) (en : AttestationEntry) (n : Nat) :
    n ∈ expandRanges (convertEntry U en).line_ranges ↔
      ∃ w ∈ expandRanges en.line_ranges,
        n = w - U.countP (fun l => decide (l < w)) := by
  unfold convertEntry
  by_cases hc : ((expandRanges en.line_ranges).map
      (fun w => w - U.countP (fun l => decide (l < w)))).isEmpty
  · rw [if_neg (by simp [hc])]
    have hnil : expandRanges en.line_ranges = [] :=
      List.map_eq_nil_iff.mp (List.isEmpty_iff.mp hc)
    constructor
    · intro hn
      simp [expandRanges] at hn
    · rintro ⟨w, hw, _⟩
      rw [hnil] at hw
      cases hw
  · rw [if_pos (by simp [hc])]
    rw [show ({ en with line_ranges := LineRange.compress_lines (dedupAdj (sortNat
        ((expandRanges en.line_ranges).map
          (fun w => w - U.countP (fun l => decide (l < w)))))) }
        : AttestationEntry).line_ranges
      = LineRange.compress_lines (dedupAdj (sortNat
        ((expandRanges en.line_ranges).map
          (fun w => w - U.countP (fun l => decide (l < w)))))) from rfl]
    rw [mem_expand_compress_sortedDedup]
    simp only [List.mem_map]
    constructor
    · rintro ⟨w, hw, rfl⟩
      exact ⟨w, hw, rfl⟩
    · rintro ⟨w, hw, rfl⟩
      exact ⟨w, hw, rfl⟩

theorem mem_entryLinesFor_nonempty {fa : FileAttestation} {h : String} {n : Nat}
    (hn : n ∈ entryLinesFor fa h) : fa.entries.isEmpty = false := by
  rcases List.mem_flatMap.mp hn with ⟨en, hen, _⟩
  rcases List.mem_filter.mp hen with ⟨hen', _⟩
  cases hfa : fa.entries with
  | nil => rw [hfa] at hen'; cases hen'
  | cons a l => rfl

theorem convertFileAttestation_file_path (u : List (String × List LineRange))
    (fa : FileAttestation) :
    (convertFileAttestation u fa).file_path = fa.file_path := by
  unfold convertFileAttestation
  cases u.lookup fa.file_path <;> rfl

theorem mem_entryLinesFor_convertFile (u : List (String × List LineRange))
    (fa : FileAttestation) (h : String) (n : Nat) :
    n ∈ entryLinesFor (convertFileAttestation u fa) h ↔
      ∃ w ∈ entryLinesFor fa h,
        n = w - (unstagedLinesFor u fa.file_path).countP (fun l => decide (l < w)) := by
  unfold convertFileAttestation unstagedLinesFor
  cases hu : u.lookup fa.file_path with
  | none =>
    simp only [Option.getD_none, expandRanges, List.flatMap_nil, List.countP_nil,
      Nat.sub_zero]
    constructor
    · intro hn
      exact ⟨n, hn, rfl⟩
    · rintro ⟨w, hw, rfl⟩
      exact hw
  | some rs =>
    simp only [Option.getD_some, entryLinesFor, List.mem_flatMap, List.mem_filter,
      List.mem_map]
    constructor
    · rintro ⟨en', ⟨⟨⟨en, henmem, rfl⟩, hne⟩, hhash⟩, hn⟩
      rw [convertEntry_hash] at hhash
      rcases (mem_convertEntry _ en n).mp hn with ⟨w, hw, rfl⟩
      rw [countP_sortNat]
      exact ⟨w, ⟨en, ⟨henmem, hhash⟩, hw⟩, rfl⟩
    · rintro ⟨w, ⟨en, ⟨henmem, hhash⟩, hwen⟩, rfl⟩
      have hnmem : (w - (sortNat (expandRanges rs)).countP (fun l => decide (l < w)))
          ∈ expandRanges (convertEntry (sortNat (expandRanges rs)) en).line_ranges :=
        (mem_convertEntry _ en _).mpr ⟨w, hwen, rfl⟩
      have hnonempty :
          (convertEntry (sortNat (expandRanges rs)) en).line_ranges.isEmpty = false := by
        cases hr : (convertEntry (sortNat (expandRanges rs)) en).line_ranges with
        | nil => rw [hr] at hnmem; simp [expandRanges] at hnmem
        | cons a l => rfl
      rw [countP_sortNat] at hnmem
      refine ⟨convertEntry (sortNat (expandRanges rs)) en,
        ⟨⟨⟨en, henmem, rfl⟩, by simp [hnonempty]⟩, ?_⟩, hnmem⟩
      rw [convertEntry_hash]
      exact hhash

theorem mem_linesFor_iff (log : AuthorshipLog) (f h : String) (n : Nat) :
    n ∈ linesFor log f h ↔
      ∃ fa ∈ log.attestations, fa.file_path = f ∧ n ∈ entryLinesFor fa h := by
  simp only [linesFor, entryLinesFor, List.mem_flatMap, List.mem_filter,
    beq_iff_eq]
  constructor
  · rintro ⟨fa, ⟨hmem, hfile⟩, hn⟩
    exact ⟨fa, hmem, hfile, hn⟩
  · rintro ⟨fa, hmem, hfile, hn⟩
    exact ⟨fa, ⟨hmem, hfile⟩, hn⟩

theorem mem_linesFor_convert (log : AuthorshipLog)
    (u : List (String × List LineRange)) (f h : String) (n : Nat) :
    n ∈ linesFor (convert_authorship_log_to_commit_coordinates log u) f h ↔
      ∃ w ∈ linesFor log f h,
        n = w - (unstagedLinesFor u f).countP (fun l => decide (l < w)) := by
  rw [mem_linesFor_iff]
  simp only [convert_authorship_log_to_commit_coordinates, List.mem_filter,
    List.mem_map]
  constructor
  · rintro ⟨fa', ⟨⟨fa, hfamem, rfl⟩, hnefa⟩, hfile, hn⟩
    rw [convertFileAttestation_file_path] at hfile
    rcases (mem_entryLinesFor_convertFile u fa h n).mp hn with ⟨w, hw, rfl⟩
    rw [hfile]
    exact ⟨w, (mem_linesFor_iff log f h w).mpr ⟨fa, hfamem, hfile, hw⟩, rfl⟩
  · rintro ⟨w, hw, rfl⟩
    rcases (mem_linesFor_iff log f h w).mp hw with ⟨fa, hfamem, hfile, hwfa⟩
    have hn : (w - (unstagedLinesFor u f).countP (fun l => decide (l < w)))
        ∈ entryLinesFor (convertFileAttestation u fa) h := by
      apply (mem_entryLinesFor_convertFile u fa h _).mpr
      rw [hfile]
      exact ⟨w, hwfa, rfl⟩
    have hne : (convertFileAttestation u fa).entries.isEmpty = false :=
      mem_entryLinesFor_nonempty hn
    exact ⟨convertFileAttestation u fa, ⟨⟨fa, hfamem, rfl⟩, by simp [hne]⟩,
      by rw [convertFileAttestation_file_path]; exact hfile, hn⟩

theorem mem_filterEntryToCommitted (C : List Nat) (en : AttestationEntry) (n : Nat) :
    n ∈ expandRanges (filterEntryToCommitted C en).line_ranges ↔
      n ∈ expandRanges en.line_ranges ∧ n ∈ C := by
  simp only [filterEntryToCommitted]
  rw [mem_expand_compress_sortedDedup, List.mem_filter]
  simp [List.contains]

theorem filterEntryToCommitted_hash (C : List Nat) (en : AttestationEntry) :
    (filterEntryToCommitted C en).hash = en.hash := rfl

theorem filterFileToCommitted_file_path (c : List (String × List LineRange))
    (fa : FileAttestation) :
    (filterFileToCommitted c fa).file_path = fa.file_path := rfl

theorem mem_entryLinesFor_filterFile (c : List (String × List LineRange))
    (fa : FileAttestation) (h : String) (n : Nat) :
    n ∈ entryLinesFor (filterFileToCommitted c fa) h ↔
      n ∈ entryLinesFor fa h ∧
        n ∈ expandRanges ((c.lookup fa.file_path).getD []) := by
  simp only [filterFileToCommitted, entryLinesFor, List.mem_flatMap,
    List.mem_filter, List.mem_map]
  constructor
  · rintro ⟨en', ⟨⟨⟨en, henmem, rfl⟩, hne⟩, hhash⟩, hn⟩
    rw [filterEntryToCommitted_hash] at hhash
    rcases (mem_filterEntryToCommitted _ en n).mp hn with ⟨hnen, hnc⟩
    exact ⟨⟨en, ⟨henmem, hhash⟩, hnen⟩, hnc⟩
  · rintro ⟨⟨en, ⟨henmem, hhash⟩, hnen⟩, hnc⟩
    have hnmem : n ∈ expandRanges (filterEntryToCommitted
        (expandRanges ((c.lookup fa.file_path).getD [])) en).line_ranges :=
      (mem_filterEntryToCommitted _ en n).mpr ⟨hnen, hnc⟩
    have hnonempty : (filterEntryToCommitted
        (expandRanges ((c.lookup fa.file_path).getD [])) en).line_ranges.isEmpty
        = false := by
      cases hr : (filterEntryToCommitted
          (expandRanges ((c.lookup fa.file_path).getD [])) en).line_ranges with
      | nil => rw [hr] at hnmem; simp [expandRanges] at hnmem
      | cons a l => rfl
    exact ⟨filterEntryToCommitted (expandRanges ((c.lookup fa.file_path).getD [])) en,
      ⟨⟨⟨en, henmem, rfl⟩, by simp [hnonempty]⟩,
        by rw [filterEntryToCommitted_hash]; exact hhash⟩, hnmem⟩

theorem mem_linesFor_filterCommitted (log : AuthorshipLog)
    (c : List (String × List LineRange)) (f h : String) (n : Nat) :
    n ∈ linesFor (filter_to_committed_lines log c) f h ↔
      n ∈ linesFor log f h ∧ n ∈ expandRanges ((c.lookup f).getD []) := by
  rw [mem_linesFor_iff]
  simp only [filter_to_committed_lines, List.mem_filter, List.mem_map]
  constructor
  · rintro ⟨fa', ⟨⟨fa, hfamem, rfl⟩, hnefa⟩, hfile, hn⟩
    rw [filterFileToCommitted_file_path] at hfile
    rcases (mem_entryLinesFor_filterFile c fa h n).mp hn with ⟨hnfa, hnc⟩
    rw [hfile] at hnc
    exact ⟨(mem_linesFor_iff log f h n).mpr ⟨fa, hfamem, hfile, hnfa⟩, hnc⟩
  · rintro ⟨hn, hnc⟩
    rcases (mem_linesFor_iff log f h n).mp hn with ⟨fa, hfamem, hfile, hnfa⟩
    have hn' : n ∈ entryLinesFor (filterFileToCommitted c fa) h := by
      apply (mem_entryLinesFor_filterFile c fa h n).mpr
      rw [hfile]
      exact ⟨hnfa, hnc⟩
    have hne : (filterFileToCommitted c fa).entries.isEmpty = false :=
      mem_entryLinesFor_nonempty hn'
    exact ⟨filterFileToCommitted c fa, ⟨⟨fa, hfamem, rfl⟩, by simp [hne]⟩,
      by rw [filterFileToCommitted_file_path]; exact hfile, hn'⟩

/-- C1: In the post-commit projection, for every file with unstaged lines `U`,
every working-directory line `w` appearing in the authorship log is translated
to commit coordinates as `w` minus the number of elements of `U` strictly less
than `w`, and lines whose adjustment would fall outside the committed range
(i.e. does not land on a committed-hunk line) are dropped from the published
log: a line `n` is published for file `f` and prompt hash `h` exactly when it
is a committed line and is the translation of some attested working-directory
line. -/
theorem post_commit_coordinate_translation (log : AuthorshipLog)
    (unstaged_hunks committed_hunks : List (String × List LineRange))
    (f h : String) (n : Nat) :
    n ∈ linesFor (post_commit_published log unstaged_hunks committed_hunks) f h ↔
      (∃ w ∈ linesFor log f h,
        n = w - (unstagedLinesFor unstaged_hunks f).countP (fun u => decide (u < w))) ∧
      n ∈ expandRanges ((committed_hunks.lookup f).getD []) := by
  unfold post_commit_published
  rw [mem_linesFor_filterCommitted, mem_linesFor_convert]

/-! ### String primitives

Rust `&str` manipulation is embedded over `List Char` (Lean's built-in
`String` functions do not reduce inside the kernel).  Each primitive mirrors
the corresponding `str` method; byte indices agree with character indices on
the ASCII prefixes used by the code. -/

/-- Rust `str::starts_with`. -/
def strStartsWith : List Char → List Char → Bool
  | _, [] => true
  | [], _ :: _ => false
  | c :: s, p :: ps => c = p && strStartsWith s ps

/-- Rust `str::contains` for a literal pattern. -/
def strHasSub : List Char → List Char → Bool
  | [], pat => pat.isEmpty
  | c :: s, pat => strStartsWith (c :: s) pat || strHasSub s pat

/-- Rust `str::trim` (both ends; `Char.isWhitespace` stands in for Unicode
whitespace, which covers every character the sources compare against). -/
def strTrim (s : List Char) : List Char :=
  ((s.dropWhile Char.isWhitespace).reverse.dropWhile Char.isWhitespace).reverse

/-- `s.trim().is_empty()`. -/
def strTrimIsEmpty (s : List Char) : Bool := (strTrim s).isEmpty

/-- Rust `str::split` on a one-character pattern (keeps empty pieces). -/
def splitOnPChar (p : Char → Bool) : List Char → List (List Char)
  | [] => [[]]
  | c :: rest =>
    match splitOnPChar p rest with
    | [] => [[]]
    | g :: gs => if p c then [] :: g :: gs else (c :: g) :: gs

/-- Rust `str::split("@@")`: split on each non-overlapping occurrence of two
at-signs, scanning left to right. -/
def splitOnDoubleAt : List Char → List (List Char)
  | [] => [[]]
  | '@' :: '@' :: rest => [] :: splitOnDoubleAt rest
  | c :: rest =>
    match splitOnDoubleAt rest with
    | [] => [[c]]
    | g :: gs => (c :: g) :: gs

/-- Rust `str::split_whitespace` (runs of whitespace, no empty pieces). -/
def splitWhitespace (s : List Char) : List (List Char) :=
  (splitOnPChar Char.isWhitespace s).filter (fun t => !t.isEmpty)

/-- Digit run of a Rust `u32` parse (`"" `is invalid). Overflow is ignored:
the claims never exercise values near `2^32`. -/
def parseDigits : Nat → List Char → Option Nat
  | _, [] => none
  | acc, [c] => if c.isDigit then some (acc * 10 + (c.toNat - 48)) else none
  | acc, c :: rest =>
    if c.isDigit then parseDigits (acc * 10 + (c.toNat - 48)) rest else none

/-- Rust `str::parse::<u32>()`: optional leading `+`, then one or more
digits. -/
def parse_u32 : List Char → Option Nat
  | '+' :: rest => parseDigits 0 rest
  | s => parseDigits 0 s

/-! ### C2: the `-U0` diff parser (`src/src/git/repository.rs:1619-1694`) -/

/-- `parse_hunk_header` (`src/src/git/repository.rs:1656-1694`): extract the
new-side line numbers from a hunk header `@@ -old_start,old_count
+new_start,new_count @@`. -/
def parse_hunk_header (line : List Char) : Option (List Nat) :=
  let parts := splitOnDoubleAt line
  match parts.get? 1 with
  | none => none -- parts.len() < 2
  | some raw =>
    let hunk_info := strTrim raw
    let ranges := splitWhitespace hunk_info
    if ranges.length < 2 then none
    else
      match ranges.find? (fun r => strStartsWith r ['+']) with
      | none => none
      | some r =>
        let new_range := r.dropWhile (fun c => c = '+') -- trim_start_matches('+')
        let new_parts := splitOnPChar (fun c => c = ',') new_range
        match parse_u32 (new_parts.getD 0 []) with
        | none => none
        | some start =>
          match if new_parts.length > 1 then parse_u32 (new_parts.getD 1 [])
            else some 1 with
          | none => none
          | some count =>
            if count = 0 then some [] -- only deletions: no lines added
            else some (List.range' start count)

/-- The fold state of `parse_diff_added_lines`: the file currently being
diffed, and the `HashMap<String, Vec<u32>>` accumulated so far (modelled as
an association list in first-insertion order). -/
structure DiffParseState where
  current_file : Option (List Char)
  result : List (List Char × List Nat)
deriving Repr

/-- `result.entry(file).or_insert_with(Vec::new).extend(added_lines)`. -/
def extendEntry : List (List Char × List Nat) → List Char → List Nat →
    List (List Char × List Nat)
  | [], f, ls => [(f, ls)]
  | (k, v) :: rest, f, ls =>
    if k = f then (k, v ++ ls) :: rest else (k, v) :: extendEntry rest f ls

/-- One iteration of the `for line in diff_output.lines()` loop of
`parse_diff_added_lines` (`src/src/git/repository.rs:1623-1641`). -/
def parseDiffLine (st : DiffParseState) (line : List Char) : DiffParseState :=
  if strStartsWith line ("+++ b/".data) then
    { st with current_file := some (line.drop 6) }
  else if strStartsWith line ("+++ /dev/null".data) then
    { st with current_file := none } -- file was deleted
  else if strStartsWith line ("@@ ".data) then
    match st.current_file with
    | some file =>
      match parse_hunk_header line with
      | some added_lines => { st with result := extendEntry st.result file added_lines }
      | none => st
    | none => st
  else st

/-- `parse_diff_added_lines` (`src/src/git/repository.rs:1619-1650`); the
input is the line list `diff_output.lines()`.  After the loop each file's
numbers are sorted and deduplicated. -/
def parse_diff_added_lines (diff_lines : List (List Char)) :
    List (List Char × List Nat) :=
  let final := diff_lines.foldl parseDiffLine ⟨none, []⟩
  final.result.map (fun p => (p.1, dedupAdj (sortNat p.2)))

/-- `HashMap::get` on the modelled result map. -/
def lookupLines : List (List Char × List Nat) → List Char → Option (List Nat)
  | [], _ => none
  | (k, v) :: rest, f => if k = f then some v else lookupLines rest f

theorem lookupLines_map_sortedDedup :
    ∀ (m : List (List Char × List Nat)) (f : List Char),
      lookupLines (m.map (fun p => (p.1, dedupAdj (sortNat p.2)))) f
        = (lookupLines m f).map (fun ls => dedupAdj (sortNat ls))
  | [], f => rfl
  | (k, v) :: rest, f => by
    by_cases h : k = f <;>
      simp [lookupLines, h, lookupLines_map_sortedDedup rest f]

theorem mem_lookupLines_extendEntry :
    ∀ (m : List (List Char × List Nat)) (k : List Char) (ls : List Nat)
      (f : List Char) (n : Nat),
      n ∈ (lookupLines (extendEntry m k ls) f).getD [] →
        n ∈ (lookupLines m f).getD [] ∨ n ∈ ls
  | [], k, ls, f, n => by
    intro hn
    by_cases h : k = f
    · simp only [extendEntry, lookupLines, if_pos h, Option.getD_some] at hn
      exact Or.inr hn
    · simp [extendEntry, lookupLines, h] at hn
  | (k', v) :: rest, k, ls, f, n => by
    intro hn
    by_cases hk : k' = k
    · rw [show extendEntry ((k', v) :: rest) k ls = (k', v ++ ls) :: rest from
        if_pos hk] at hn
      by_cases h : k' = f
      · simp only [lookupLines, if_pos h, Option.getD_some, List.mem_append] at hn ⊢
        exact hn
      · simp only [lookupLines, if_neg h] at hn ⊢
        exact Or.inl hn
    · rw [show extendEntry ((k', v) :: rest) k ls
          = (k', v) :: extendEntry rest k ls from if_neg hk] at hn
      by_cases h : k' = f
      · simp only [lookupLines, if_pos h, Option.getD_some] at hn ⊢
        exact Or.inl hn
      · simp only [lookupLines, if_neg h] at hn ⊢
        exact mem_lookupLines_extendEntry rest k ls f n hn

theorem lookupLines_extendEntry_isSome :
    ∀ (m : List (List Char × List Nat)) (k : List Char) (ls : List Nat)
      (f : List Char),
      lookupLines (extendEntry m k ls) f ≠ none →
        lookupLines m f ≠ none ∨ k = f
  | [], k, ls, f => by
    intro hf
    by_cases h : k = f
    · exact Or.inr h
    · simp [extendEntry, lookupLines, h] at hf
  | (k', v) :: rest, k, ls, f => by
    intro hf
    by_cases hk : k' = k
    · by_cases h : k' = f
      · exact Or.inl (by simp [lookupLines, h])
      · rw [show extendEntry ((k', v) :: rest) k ls = (k', v ++ ls) :: rest from
          if_pos hk] at hf
        simp only [lookupLines, if_neg h] at hf ⊢
        exact Or.inl hf
    · by_cases h : k' = f
      · exact Or.inl (by simp [lookupLines, h])
      · rw [show extendEntry ((k', v) :: rest) k ls
            = (k', v) :: extendEntry rest k ls from if_neg hk] at hf
        simp only [lookupLines, if_neg h] at hf ⊢
        exact lookupLines_extendEntry_isSome rest k ls f hf

theorem lookupLines_extendEntry_nil :
    ∀ (m : List (List Char × List Nat)) (k f : List Char),
      (lookupLines (extendEntry m k []) f).getD [] = (lookupLines m f).getD []
  | [], k, f => by
    by_cases h : k = f <;> simp [extendEntry, lookupLines, h]
  | (k', v) :: rest, k, f => by
    by_cases hk : k' = k
    · rw [show extendEntry ((k', v) :: rest) k [] = (k', v ++ []) :: rest from
        if_pos hk]
      by_cases h : k' = f <;> simp [lookupLines, h]
    · rw [show extendEntry ((k', v) :: rest) k []
          = (k', v) :: extendEntry rest k [] from if_neg hk]
      by_cases h : k' = f
      · simp [lookupLines, h]
      · simp only [lookupLines, if_neg h]
        exact lookupLines_extendEntry_nil rest k f

theorem parseDiffLine_values (st : DiffParseState) (line : List Char)
    (f : List Char) (n : Nat)
    (hn : n ∈ (lookupLines (parseDiffLine st line).result f).getD []) :
    n ∈ (lookupLines st.result f).getD [] ∨
      (strStartsWith line ("@@ ".data) = true ∧
        ∃ ls, parse_hunk_header line = some ls ∧ n ∈ ls) := by
  unfold parseDiffLine at hn
  by_cases h1 : strStartsWith line ("+++ b/".data) = true
  · rw [if_pos h1] at hn
    exact Or.inl hn
  · rw [if_neg h1] at hn
    by_cases h2 : strStartsWith line ("+++ /dev/null".data) = true
    · rw [if_pos h2] at hn
      exact Or.inl hn
    · rw [if_neg h2] at hn
      by_cases h3 : strStartsWith line ("@@ ".data) = true
      · rw [if_pos h3] at hn
        cases hcur : st.current_file with
        | none => rw [hcur] at hn; exact Or.inl hn
        | some file =>
          rw [hcur] at hn
          cases hph : parse_hunk_header line with
          | none => rw [hph] at hn; exact Or.inl hn
          | some ls =>
            rw [hph] at hn
            rcases mem_lookupLines_extendEntry st.result file ls f n hn with h | h
            · exact Or.inl h
            · exact Or.inr ⟨h3, ls, rfl, h⟩
      · rw [if_neg h3] at hn
        exact Or.inl hn

theorem parseDiffLine_keys (st : DiffParseState) (line : List Char)
    (f : List Char)
    (hf : lookupLines (parseDiffLine st line).result f ≠ none) :
    lookupLines st.result f ≠ none ∨ st.current_file = some f := by
  unfold parseDiffLine at hf
  by_cases h1 : strStartsWith line ("+++ b/".data) = true
  · rw [if_pos h1] at hf
    exact Or.inl hf
  · rw [if_neg h1] at hf
    by_cases h2 : strStartsWith line ("+++ /dev/null".data) = true
    · rw [if_pos h2] at hf
      exact Or.inl hf
    · rw [if_neg h2] at hf
      by_cases h3 : strStartsWith line ("@@ ".data) = true
      · rw [if_pos h3] at hf
        cases hcur : st.current_file with
        | none => rw [hcur] at hf; exact Or.inl hf
        | some file =>
          rw [hcur] at hf
          cases hph : parse_hunk_header line with
          | none => rw [hph] at hf; exact Or.inl hf
          | some ls =>
            rw [hph] at hf
            rcases lookupLines_extendEntry_isSome st.result file ls f hf with h | h
            · exact Or.inl h
            · exact Or.inr (by rw [h])
      · rw [if_neg h3] at hf
        exact Or.inl hf

theorem parseDiffLine_current_eq (st : DiffParseState) (line : List Char) :
    (parseDiffLine st line).current_file =
      if strStartsWith line ("+++ b/".data) then some (line.drop 6)
      else if strStartsWith line ("+++ /dev/null".data) then none
      else st.current_file := by
  unfold parseDiffLine
  by_cases h1 : strStartsWith line ("+++ b/".data) = true
  · simp [h1]
  · by_cases h2 : strStartsWith line ("+++ /dev/null".data) = true
    · simp [h1, h2]
    · by_cases h3 : strStartsWith line ("@@ ".data) = true
      · simp only [h1, h2, h3, Bool.false_eq_true, if_true, if_false, ite_true,
          ite_false]
        cases hcur : st.current_file with
        | none => exact hcur
        | some file =>
          cases hph : parse_hunk_header line with
          | none => exact hcur
          | some ls => rfl
      · simp [h1, h2, h3]

theorem parseDiffLine_current (st : DiffParseState) (line : List Char)
    (f : List Char)
    (hf : (parseDiffLine st line).current_file = some f) :
    st.current_file = some f ∨
      (strStartsWith line ("+++ b/".data) = true ∧ line.drop 6 = f) := by
  rw [parseDiffLine_current_eq] at hf
  by_cases h1 : strStartsWith line ("+++ b/".data) = true
  · rw [if_pos h1] at hf
    exact Or.inr ⟨h1, Option.some.inj hf⟩
  · rw [if_neg h1] at hf
    by_cases h2 : strStartsWith line ("+++ /dev/null".data) = true
    · rw [if_pos h2] at hf
      cases hf
    · rw [if_neg h2] at hf
      exact Or.inl hf

theorem parseDiffLine_zero_hunk (st : DiffParseState) (line : List Char)
    (hz : parse_hunk_header line = some []) (f : List Char) :
    (lookupLines (parseDiffLine st line).result f).getD []
      = (lookupLines st.result f).getD [] := by
  unfold parseDiffLine
  by_cases h1 : strStartsWith line ("+++ b/".data) = true
  · rw [if_pos h1]
  · rw [if_neg h1]
    by_cases h2 : strStartsWith line ("+++ /dev/null".data) = true
    · rw [if_pos h2]
    · rw [if_neg h2]
      by_cases h3 : strStartsWith line ("@@ ".data) = true
      · rw [if_pos h3]
        cases hcur : st.current_file with
        | none => rfl
        | some file =>
          rw [hz]
          exact lookupLines_extendEntry_nil st.result file f
      · rw [if_neg h3]

theorem foldl_parseDiffLine_values :
    ∀ (lines : List (List Char)) (st : DiffParseState) (f : List Char) (n : Nat),
      n ∈ (lookupLines (lines.foldl parseDiffLine st).result f).getD [] →
        n ∈ (lookupLines st.result f).getD [] ∨
          ∃ line ∈ lines, strStartsWith line ("@@ ".data) = true ∧
            ∃ ls, parse_hunk_header line = some ls ∧ n ∈ ls
  | [], st, f, n => fun h => Or.inl h
  | line :: rest, st, f, n => by
    intro h
    rcases foldl_parseDiffLine_values rest (parseDiffLine st line) f n h with h' | h'
    · rcases parseDiffLine_values st line f n h' with h'' | h''
      · exact Or.inl h''
      · exact Or.inr ⟨line, List.mem_cons_self line rest, h''⟩
    · rcases h' with ⟨l, hl, hrest⟩
      exact Or.inr ⟨l, List.mem_cons_of_mem line hl, hrest⟩

theorem foldl_parseDiffLine_keys :
    ∀ (lines : List (List Char)) (st : DiffParseState) (f : List Char),
      lookupLines (lines.foldl parseDiffLine st).result f ≠ none →
        lookupLines st.result f ≠ none ∨ st.current_file = some f ∨
          ∃ line ∈ lines, strStartsWith line ("+++ b/".data) = true ∧
            line.drop 6 = f
  | [], st, f => fun h => Or.inl h
  | line :: rest, st, f => by
    intro h
    rcases foldl_parseDiffLine_keys rest (parseDiffLine st line) f h with h' | h' | h'
    · rcases parseDiffLine_keys st line f h' with h'' | h''
      · exact Or.inl h''
      · exact Or.inr (Or.inl h'')
    · rcases parseDiffLine_current st line f h' with h'' | h''
      · exact Or.inr (Or.inl h'')
      · exact Or.inr (Or.inr ⟨line, List.mem_cons_self line rest, h''⟩)
    · rcases h' with ⟨l, hl, hrest⟩
      exact Or.inr (Or.inr ⟨l, List.mem_cons_of_mem line hl, hrest⟩)

/-- C2: For every unified-diff text given to the added-lines diff parser, the
result maps each file to a sorted, deduplicated list of 1-based new-side line
numbers taken from the hunk headers (conjuncts 1 and 3); a deleted file (new
side `/dev/null`) yields no entry in the map, since an entry for `f` exists
only when a `+++ b/f` line names `f` on the new side (conjunct 2); and a hunk
whose new-side count is 0 (`+n,0`, which the header parser maps to `some []`)
contributes no line number to any file (conjunct 4). -/
theorem parse_diff_added_lines_spec (diff_lines : List (List Char)) :
    (∀ f l, lookupLines (parse_diff_added_lines diff_lines) f = some l →
      l.Pairwise (· < ·)) ∧
    (∀ f l, lookupLines (parse_diff_added_lines diff_lines) f = some l →
      ∃ line ∈ diff_lines, strStartsWith line ("+++ b/".data) = true ∧
        line.drop 6 = f) ∧
    (∀ f l n, lookupLines (parse_diff_added_lines diff_lines) f = some l →
      n ∈ l →
      ∃ line ∈ diff_lines, strStartsWith line ("@@ ".data) = true ∧
        ∃ ls, parse_hunk_header line = some ls ∧ n ∈ ls) ∧
    (∀ (st : DiffParseState) (line : List Char),
      parse_hunk_header line = some [] → ∀ f,
      (lookupLines (parseDiffLine st line).result f).getD []
        = (lookupLines st.result f).getD []) := by
  refine ⟨?_, ?_, ?_, ?_⟩
  · intro f l hl
    rw [show parse_diff_added_lines diff_lines
        = (diff_lines.foldl parseDiffLine ⟨none, []⟩).result.map
            (fun p => (p.1, dedupAdj (sortNat p.2))) from rfl,
      lookupLines_map_sortedDedup] at hl
    cases hraw : lookupLines (diff_lines.foldl parseDiffLine ⟨none, []⟩).result f with
    | none => rw [hraw] at hl; cases hl
    | some ls0 =>
      rw [hraw] at hl
      cases hl
      exact pairwise_lt_sortedDedup ls0
  · intro f l hl
    rw [show parse_diff_added_lines diff_lines
        = (diff_lines.foldl parseDiffLine ⟨none, []⟩).result.map
            (fun p => (p.1, dedupAdj (sortNat p.2))) from rfl,
      lookupLines_map_sortedDedup] at hl
    have hraw : lookupLines (diff_lines.foldl parseDiffLine ⟨none, []⟩).result f
        ≠ none := by
      intro hcon
      rw [hcon] at hl
      cases hl
    rcases foldl_parseDiffLine_keys diff_lines ⟨none, []⟩ f hraw with h | h | h
    · exact absurd rfl h
    · cases h
    · exact h
  · intro f l n hl hn
    rw [show parse_diff_added_lines diff_lines
        = (diff_lines.foldl parseDiffLine ⟨none, []⟩).result.map
            (fun p => (p.1, dedupAdj (sortNat p.2))) from rfl,
      lookupLines_map_sortedDedup] at hl
    cases hraw : lookupLines (diff_lines.foldl parseDiffLine ⟨none, []⟩).result f with
    | none => rw [hraw] at hl; cases hl
    | some ls0 =>
      rw [hraw] at hl
      cases hl
      have hn0 : n ∈ (lookupLines
          (diff_lines.foldl parseDiffLine ⟨none, []⟩).result f).getD [] := by
        rw [hraw]
        exact (mem_sortedDedup ls0 n).mp hn
      rcases foldl_parseDiffLine_values diff_lines ⟨none, []⟩ f n hn0 with h | h
      · cases h
      · exact h
  · intro st line hz f
    exact parseDiffLine_zero_hunk st line hz f

/-- Witness for C2 at a concrete two-line diff
(`+++ b/a.txt` followed by the hunk header `@@ -1,0 +2,2 @@`), plus a
concrete `+n,0` hunk step that leaves the accumulated lines unchanged. -/
theorem parse_diff_added_lines_spec_witness :
    (([2, 3] : List Nat).Pairwise (· < ·)) ∧
    (∃ line ∈ ["+++ b/a.txt".data, "@@ -1,0 +2,2 @@".data],
      strStartsWith line ("+++ b/".data) = true ∧ line.drop 6 = "a.txt".data) ∧
    (∃ line ∈ ["+++ b/a.txt".data, "@@ -1,0 +2,2 @@".data],
      strStartsWith line ("@@ ".data) = true ∧
        ∃ ls, parse_hunk_header line = some ls ∧ 2 ∈ ls) ∧
    ((lookupLines (parseDiffLine ⟨some "a.txt".data, [("a.txt".data, [7])]⟩
        ("@@ -9,2 +5,0 @@".data)).result "a.txt".data).getD []
      = (lookupLines [("a.txt".data, [7])] "a.txt".data).getD []) := by
  obtain ⟨h1, h2, h3, h4⟩ :=
    parse_diff_added_lines_spec ["+++ b/a.txt".data, "@@ -1,0 +2,2 @@".data]
  exact ⟨h1 ("a.txt".data) [2, 3] (by decide),
    h2 ("a.txt".data) [2, 3] (by decide),
    h3 ("a.txt".data) [2, 3] 2 (by decide) (by decide),
    h4 ⟨some "a.txt".data, [("a.txt".data, [7])]⟩ ("@@ -9,2 +5,0 @@".data)
      (by decide) ("a.txt".data)⟩

/-! ### C3: the post-commit working-log handoff
(`src/src/authorship/post_commit.rs:77-151`) -/

/-- `working_log::AgentId` (tool and session id; only `is_some` is inspected
by `post_commit`). -/
structure AgentId where
  tool : String
  id : String
deriving Repr, DecidableEq

/-- Working-log entry as used by the handoff loop of `post_commit`
(fields `file`, `added_lines`, `deleted_lines` as in
`src/src/log_fmt/working_log.rs`). -/
structure WorkingLogEntry where
  file : String
  added_lines : List LineRange
  deleted_lines : List LineRange
deriving Repr, DecidableEq

/-- Checkpoint as used by the handoff loop of `post_commit` (`entries`, and
`agent_id` which decides `has_unstaged_ai_lines`). -/
structure WlCheckpoint where
  entries : List WorkingLogEntry
  agent_id : Option AgentId
deriving Repr, DecidableEq

/-- The per-entry filtering of the handoff loop
(`src/src/authorship/post_commit.rs:111-134`): for files present in the
unstaged map, expand the added lines, keep only lines contained in some
unstaged range, recompress (`compress_lines_to_working_log_format`, modelled
from the spec as `LineRange.compress_lines`) and clear `deleted_lines`.
Entries whose file is absent from the map are left untouched. -/
def filterCheckpointEntry (unstaged_hunks : List (String × List LineRange))
    (entry : WorkingLogEntry) : WorkingLogEntry :=
  match unstaged_hunks.lookup entry.file with
  | some unstaged_ranges =>
    let all_lines := expandRanges entry.added_lines
    let all_lines := all_lines.filter
      (fun l => unstaged_hunks_contains unstaged_ranges l)
    { entry with added_lines := LineRange.compress_lines all_lines,
                 deleted_lines := [] }
  | none => entry
where
  /-- `unstaged_ranges.iter().any(|range| range.contains(*l))`. -/
  unstaged_hunks_contains (rs : List LineRange) (l : Nat) : Bool :=
    rs.any (fun r => r.contains l)

/-- The handoff loop over checkpoints
(`src/src/authorship/post_commit.rs:109-145`): filter each entry, drop
entries with no added lines left, drop checkpoints with no entries left. -/
def transfer_working_log (parent_checkpoints : List WlCheckpoint)
    (unstaged_hunks : List (String × List LineRange)) : List WlCheckpoint :=
  parent_checkpoints.filterMap (fun cp =>
    let entries := (cp.entries.map (filterCheckpointEntry unstaged_hunks)).filter
      (fun e => !e.added_lines.isEmpty)
    if entries.isEmpty then none else some { cp with entries := entries })

/-- `has_unstaged_ai_lines` (`src/src/authorship/post_commit.rs:77-87`). -/
def has_unstaged_ai_lines (unstaged_hunks : List (String × List LineRange))
    (parent_checkpoints : List WlCheckpoint) : Bool :=
  if !unstaged_hunks.isEmpty then
    !parent_checkpoints.isEmpty &&
      parent_checkpoints.any (fun cp => cp.agent_id.isSome)
  else
    false

/-- Release-build (`!cfg!(debug_assertions)`) effect of `post_commit` on the
working logs (`src/src/authorship/post_commit.rs:96-151`): the parent log is
always deleted; when unstaged AI lines exist, the filtered checkpoints are
first appended to the new commit's working log. -/
structure HandoffResult where
  transferred : List WlCheckpoint
  parent_deleted : Bool
deriving Repr, DecidableEq

def post_commit_working_log_handoff (parent_checkpoints : List WlCheckpoint)
    (unstaged_hunks : List (String × List LineRange)) : HandoffResult :=
  if !(has_unstaged_ai_lines unstaged_hunks parent_checkpoints) then
    { transferred := [], parent_deleted := true }
  else
    { transferred := transfer_working_log parent_checkpoints unstaged_hunks,
      parent_deleted := true }

/-- The failing input for C3: an AI checkpoint whose entry is for a file with
no unstaged changes (`a.txt`, lines 1-2 fully committed), while another file
(`b.txt`) keeps one unstaged line so the transfer branch runs. -/
def c3Checkpoint : WlCheckpoint :=
  { entries := [{ file := "a.txt", added_lines := [LineRange.range 1 2],
                  deleted_lines := [] }],
    agent_id := some { tool := "claude", id := "sess1" } }

def c3Unstaged : List (String × List LineRange) := [("b.txt", [LineRange.single 1])]

/-- C3: the claim states that after publication every surviving entry's line
ranges are a subset of the unstaged lines of its file.  Evaluating the code
at the failing input: the transfer branch runs, the `a.txt` entry survives
unchanged (its file is absent from the unstaged map, so the loop never
filters it), yet `a.txt` has no unstaged lines at all — the surviving lines
1 and 2 are not a subset of the (empty) unstaged set. -/
theorem working_log_handoff_keeps_fully_committed_entry :
    (post_commit_working_log_handoff [c3Checkpoint] c3Unstaged).transferred
      = [c3Checkpoint] ∧
    (post_commit_working_log_handoff [c3Checkpoint] c3Unstaged).parent_deleted
      = true ∧
    expandRanges ((c3Checkpoint.entries.map
      (fun e => e.added_lines)).flatten) = [1, 2] ∧
    unstagedLinesFor c3Unstaged "a.txt" = [] := by
  decide

/-! ### C4: `Repository::commit` (`src/src/git/repository.rs:1084-1200`) -/

/-- Decimal rendering of a `Nat` (Rust `{}` formatting). -/
def natToChars (n : Nat) : List Char := Nat.toDigits 10 n

/-- Decimal rendering of an `i64`/`i32` (Rust `{}` formatting). -/
def intToChars (i : Int) : List Char :=
  if i < 0 then '-' :: natToChars i.natAbs else natToChars i.natAbs

/-- Rust `{:02}` formatting: zero-pad to two digits. -/
def pad2 (n : Nat) : List Char :=
  if n < 10 then '0' :: natToChars n else natToChars n

/-- `git::repository::Signature`, with `when()` already parsed to
`(seconds, offset_minutes)` (the RFC3339 parsing is done by the external
`chrono` crate). -/
structure GitSignature where
  name : List Char
  email : List Char
  time_seconds : Int
  time_offset_minutes : Int
deriving Repr, DecidableEq

/-- `fmt_git_date` (`src/src/git/repository.rs:1111-1119`):
`"<unix-seconds> <±HHMM>"`. -/
def fmt_git_date (seconds offset_minutes : Int) : List Char :=
  let sign := if offset_minutes ≥ 0 then '+' else '-'
  let abs := offset_minutes.natAbs
  let hh := abs / 60
  let mm := abs % 60
  intToChars seconds ++ [' ', sign] ++ pad2 hh ++ pad2 mm

/-- The slice of the git-side world `Repository::commit` touches: the refs it
can `rev-parse --verify` (name ↦ tip), the symbolic-ref target of HEAD, and
the commit id that `commit-tree` prints on stdout. -/
structure GitWorld where
  refs : List (List Char × List Char)
  head_ref : Option (List Char)
  commit_tree_out : List Char
deriving Repr, DecidableEq

def lookupRef : List (List Char × List Char) → List Char → Option (List Char)
  | [], _ => none
  | (k, v) :: rest, r => if k = r then some v else lookupRef rest r

/-- `git update-ref <target> <new>` on the modelled ref store. -/
def setRef : List (List Char × List Char) → List Char → List Char →
    List (List Char × List Char)
  | [], r, v => [(r, v)]
  | (k, x) :: rest, r, v =>
    if k = r then (k, v) :: rest else (k, x) :: setRef rest r v

/-- Target-ref resolution in `commit`
(`src/src/git/repository.rs:1146-1151`): `"HEAD"` resolves through
`self.head()` (symbolic-ref or the literal `"HEAD"`). -/
def resolveTarget (w : GitWorld) (update_ref_name : List Char) : List Char :=
  if update_ref_name = "HEAD".data then w.head_ref.getD ("HEAD".data)
  else update_ref_name

/-- What `Repository::commit` returns and does: the final world, the env
passed to `commit-tree` (`none` when validation failed before spawning it),
and the Rust `Result`. -/
structure CommitResult where
  world : GitWorld
  commit_tree_env : Option (List (List Char × List Char))
  outcome : Except (List Char) (List Char)
deriving Repr

/-- `Repository::commit` (`src/src/git/repository.rs:1084-1200`).  The
`commit-tree` child is assumed to succeed (its stdout is `w.commit_tree_out`),
as is the final `update-ref`; `rev-parse --verify` reads `w.refs`. -/
def Repository.commit (w : GitWorld) (update_ref : Option (List Char))
    (author committer : GitSignature) (message : List Char) (tree : List Char)
    (parents : List (List Char)) : CommitResult :=
  let author_name := strTrim author.name
  let author_email := strTrim author.email
  let committer_name := strTrim committer.name
  let committer_email := strTrim committer.email
  if author_name.isEmpty || author_email.isEmpty then
    ⟨w, none, .error ("Missing author name or email".data)⟩
  else if committer_name.isEmpty || committer_email.isEmpty then
    ⟨w, none, .error ("Missing committer name or email".data)⟩
  else
    let env := [("GIT_AUTHOR_NAME".data, author_name),
                ("GIT_AUTHOR_EMAIL".data, author_email),
                ("GIT_AUTHOR_DATE".data,
                  fmt_git_date author.time_seconds author.time_offset_minutes),
                ("GIT_COMMITTER_NAME".data, committer_name),
                ("GIT_COMMITTER_EMAIL".data, committer_email),
                ("GIT_COMMITTER_DATE".data,
                  fmt_git_date committer.time_seconds committer.time_offset_minutes)]
    let new_commit := strTrim w.commit_tree_out
    match update_ref with
    | none => ⟨w, some env, .ok new_commit⟩
    | some update_ref_name =>
      let target_ref := resolveTarget w update_ref_name
      match lookupRef w.refs target_ref with
      | some tip =>
        if parents.isEmpty then
          ⟨w, some env, .error ("Ref exists but no parents were provided".data)⟩
        else if strTrim (parents.headD []) ≠ tip then
          ⟨w, some env, .error ("First parent (".data ++ parents.headD []
            ++ ") != current tip (".data ++ tip ++ ") of ".data ++ target_ref)⟩
        else
          ⟨{ w with refs := setRef w.refs target_ref new_commit }, some env,
            .ok new_commit⟩
      | none =>
        ⟨{ w with refs := setRef w.refs target_ref new_commit }, some env,
          .ok new_commit⟩

/-- C4: when `update_ref` is supplied and the named ref exists, the commit is
created with `commit-tree` under the six explicit author/committer env
variables, and the ref is updated only if its current tip equals the (trimmed)
first parent; on a first-parent mismatch, or when the ref exists but no
parents were given, `commit` returns an error and the ref store is left
unchanged. -/
theorem commit_cas_update_ref (w : GitWorld) (r : List Char)
    (author committer : GitSignature) (message tree : List Char)
    (parents : List (List Char)) (tip : List Char)
    (hvan : (strTrim author.name).isEmpty = false)
    (hvae : (strTrim author.email).isEmpty = false)
    (hvcn : (strTrim committer.name).isEmpty = false)
    (hvce : (strTrim committer.email).isEmpty = false)
    (htip : lookupRef w.refs (resolveTarget w r) = some tip) :
    (Repository.commit w (some r) author committer message tree
        parents).commit_tree_env = some
      [("GIT_AUTHOR_NAME".data, strTrim author.name),
       ("GIT_AUTHOR_EMAIL".data, strTrim author.email),
       ("GIT_AUTHOR_DATE".data,
         fmt_git_date author.time_seconds author.time_offset_minutes),
       ("GIT_COMMITTER_NAME".data, strTrim committer.name),
       ("GIT_COMMITTER_EMAIL".data, strTrim committer.email),
       ("GIT_COMMITTER_DATE".data,
         fmt_git_date committer.time_seconds committer.time_offset_minutes)] ∧
    (parents ≠ [] → strTrim (parents.headD []) = tip →
      (Repository.commit w (some r) author committer message tree
          parents).outcome = .ok (strTrim w.commit_tree_out) ∧
      (Repository.commit w (some r) author committer message tree
          parents).world.refs
        = setRef w.refs (resolveTarget w r) (strTrim w.commit_tree_out)) ∧
    (parents = [] ∨ strTrim (parents.headD []) ≠ tip →
      (∃ e, (Repository.commit w (some r) author committer message tree
          parents).outcome = .error e) ∧
      (Repository.commit w (some r) author committer message tree
          parents).world.refs = w.refs) := by
  unfold Repository.commit
  simp only [hvan, hvae, hvcn, hvce, Bool.or_self, Bool.or_false, Bool.false_or,
    Bool.false_eq_true, if_false, ite_false, htip]
  by_cases hp : parents = []
  · subst hp
    rw [if_pos (show ([] : List (List Char)).isEmpty = true from rfl)]
    refine ⟨rfl, fun hcon _ => absurd rfl hcon, fun _ => ⟨⟨_, rfl⟩, rfl⟩⟩
  · have hpe : parents.isEmpty = false := by
      cases parents with
      | nil => exact absurd rfl hp
      | cons a l => rfl
    rw [if_neg (by simp [hpe])]
    by_cases hfp : strTrim (parents.headD []) = tip
    · rw [if_neg (not_not_intro hfp)]
      refine ⟨rfl, fun _ _ => ⟨rfl, rfl⟩, fun hcase => ?_⟩
      rcases hcase with hcase | hcase
      · exact absurd hcase hp
      · exact absurd hfp hcase
    · rw [if_pos hfp]
      exact ⟨rfl, fun _ hcon => absurd hcon hfp, fun _ => ⟨⟨_, rfl⟩, rfl⟩⟩

/-- Concrete world for the C4 witness: HEAD is symbolic to `refs/heads/main`
whose tip is `P1`; `commit-tree` prints `" C2 "`. -/
def c4World : GitWorld :=
  ⟨[("refs/heads/main".data, "P1".data)], some ("refs/heads/main".data),
    " C2 ".data⟩

def c4Sig : GitSignature := ⟨"Ada".data, "ada@x".data, 100, 90⟩

/-- Witness for C4: committing on `c4World` with matching first parent `P1`
updates the ref to `C2` under the explicit env, while first parent `P9`
errors and leaves the ref untouched. -/
theorem commit_cas_update_ref_witness :
    (Repository.commit c4World (some ("HEAD".data)) c4Sig c4Sig ("msg".data)
        ("T".data) ["P1".data]).outcome = .ok ("C2".data) ∧
    (Repository.commit c4World (some ("HEAD".data)) c4Sig c4Sig ("msg".data)
        ("T".data) ["P1".data]).world.refs
      = [("refs/heads/main".data, "C2".data)] ∧
    (Repository.commit c4World (some ("HEAD".data)) c4Sig c4Sig ("msg".data)
        ("T".data) ["P1".data]).commit_tree_env = some
      [("GIT_AUTHOR_NAME".data, "Ada".data),
       ("GIT_AUTHOR_EMAIL".data, "ada@x".data),
       ("GIT_AUTHOR_DATE".data, "100 +0130".data),
       ("GIT_COMMITTER_NAME".data, "Ada".data),
       ("GIT_COMMITTER_EMAIL".data, "ada@x".data),
       ("GIT_COMMITTER_DATE".data, "100 +0130".data)] ∧
    (∃ e, (Repository.commit c4World (some ("HEAD".data)) c4Sig c4Sig
        ("msg".data) ("T".data) ["P9".data]).outcome = .error e) ∧
    (Repository.commit c4World (some ("HEAD".data)) c4Sig c4Sig ("msg".data)
        ("T".data) ["P9".data]).world.refs
      = [("refs/heads/main".data, "P1".data)] := by
  obtain ⟨henv, hok, _⟩ := commit_cas_update_ref c4World ("HEAD".data) c4Sig
    c4Sig ("msg".data) ("T".data) ["P1".data] ("P1".data)
    (by decide) (by decide) (by decide) (by decide) (by decide)
  obtain ⟨_, _, herr⟩ := commit_cas_update_ref c4World ("HEAD".data) c4Sig
    c4Sig ("msg".data) ("T".data) ["P9".data] ("P1".data)
    (by decide) (by decide) (by decide) (by decide) (by decide)
  obtain ⟨hokout, hokrefs⟩ := hok (by decide) (by decide)
  obtain ⟨hbaderr, hbadrefs⟩ := herr (Or.inr (by decide))
  refine ⟨?_, ?_, ?_, hbaderr, ?_⟩
  · rw [hokout, show strTrim c4World.commit_tree_out = "C2".data from by decide]
  · rw [hokrefs]
    decide
  · rw [henv]
    decide
  · rw [hbadrefs]
    decide

/-! ### C5: `commit_pre_command_hook`
(`src/src/commands/commit_hooks.rs:6-33`) and the bare-repository guard of
`checkpoint::run` (`src/src/commands/checkpoint.rs:35-41`) -/

def bareRepoMsg : List Char := "Cannot run checkpoint on bare repositories".data

/-- The bare-repository guard at the top of `checkpoint::run`
(`src/src/commands/checkpoint.rs:35-41`): when the repository has no working
directory, print the message and return `Err` with the same message. -/
def checkpoint_run_bare_guard (workdir_ok : Bool) :
    Except (List Char) Unit × List (List Char) :=
  if !workdir_ok then (.error bareRepoMsg, [bareRepoMsg]) else (.ok (), [])

/-- How `commit_pre_command_hook` ends: either control returns to the wrapper
(with the hook result `Bool` of the Rust function), or the whole process
exits. -/
inductive PreHookOutcome where
  | proceed (hook_result : Bool)
  | exitProcess (code : Nat)
deriving Repr, DecidableEq

structure PreHookResult where
  outcome : PreHookOutcome
  stderr : List (List Char)
deriving Repr, DecidableEq

/-- `commit_pre_command_hook` (`src/src/commands/commit_hooks.rs:6-33`), as a
function of the dry-run flag and the `pre_commit` result (the
`require_pre_command_head` bookkeeping and author computation have no bearing
on the outcome). -/
def commit_pre_command_hook (is_dry_run : Bool)
    (pre_commit_result : Except (List Char) Unit) : PreHookResult :=
  if is_dry_run then ⟨.proceed false, []⟩
  else
    match pre_commit_result with
    | .ok _ => ⟨.proceed true, []⟩
    | .error e =>
      if strHasSub e bareRepoMsg then
        ⟨.proceed false,
          [("Cannot run checkpoint on bare repositories " ++
            "(skipping git-ai pre-commit hook)").data]⟩
      else
        ⟨.exitProcess 1, [("Pre-commit failed: ".data ++ e)]⟩

/-- Counterexample to C5 as stated: a generic pre-command hook failure does
*not* log-and-continue — it exits the wrapper with code 1, failing the user's
git operation; and conversely the bare-repository error (produced by the
`checkpoint::run` guard) does *not* abort — the hook logs the skip message
and lets the git command proceed. -/
theorem commit_pre_hook_failure_aborts :
    (commit_pre_command_hook false (.error ("disk full".data))).outcome
      = .exitProcess 1 ∧
    (commit_pre_command_hook false
        ((checkpoint_run_bare_guard false).1.map (fun _ => ()))).outcome
      = .proceed false := by
  decide

/-- C5 (amended): during a wrapped git commit, a pre-command hook failure
aborts the user's git operation (process exit 1) after printing
`Pre-commit failed: …` — with exactly one exception: the bare-repository
checkpoint error logs a visible skip message containing
"Cannot run checkpoint on bare repositories" and lets the git command
proceed with the hook disabled; dry runs and successful pre-commits always
proceed. -/
theorem commit_pre_hook_failure_policy (e : List Char)
    (r : Except (List Char) Unit) :
    (strHasSub e bareRepoMsg = false →
      commit_pre_command_hook false (.error e)
        = ⟨.exitProcess 1, [("Pre-commit failed: ".data ++ e)]⟩) ∧
    (strHasSub e bareRepoMsg = true →
      commit_pre_command_hook false (.error e)
        = ⟨.proceed false,
            [("Cannot run checkpoint on bare repositories " ++
              "(skipping git-ai pre-commit hook)").data]⟩) ∧
    (commit_pre_command_hook false (.ok ()) = ⟨.proceed true, []⟩) ∧
    (commit_pre_command_hook true r = ⟨.proceed false, []⟩) := by
  refine ⟨fun hb => ?_, fun hb => ?_, rfl, rfl⟩
  · simp [commit_pre_command_hook, hb]
  · simp [commit_pre_command_hook, hb]

/-- Witness for the amended C5 at concrete error strings. -/
theorem commit_pre_hook_failure_policy_witness :
    (commit_pre_command_hook false (.error ("io error: locked".data))
      = ⟨.exitProcess 1, [("Pre-commit failed: io error: locked".data)]⟩) ∧
    (commit_pre_command_hook false (.error bareRepoMsg)
      = ⟨.proceed false,
          [("Cannot run checkpoint on bare repositories " ++
            "(skipping git-ai pre-commit hook)").data]⟩) := by
  obtain ⟨h1, _, _, _⟩ :=
    commit_pre_hook_failure_policy ("io error: locked".data) (.ok ())
  obtain ⟨_, h2, _, _⟩ := commit_pre_hook_failure_policy bareRepoMsg (.ok ())
  exact ⟨by rw [h1 (by decide)] <;> decide, by rw [h2 (by decide)]⟩

/-! ### C6: post-command hook dispatch
(`src/src/commands/git_handlers.rs:99-180`) and `post_reset_hook`
(`src/src/commands/hooks/reset_hooks.rs:12-89`) -/

/-- Effects the modelled post-command hooks can perform on the authorship
state. -/
inductive HookEffect where
  | deleteWorkingLog (sha : List Char)
  | reconstructWorkingLog (target old : List Char)
  | pathspecRebuild (target old : List Char) (pathspecs : List (List Char))
  | commitRewriteEvent (original : Option (List Char)) (newSha : List Char)
      (amend : Bool)
deriving Repr, DecidableEq

/-- Parsed `git reset` flags and pathspecs (the CLI parser is an external
collaborator per spec §1; its outputs are inputs here). -/
structure ResetArgs where
  hasHard : Bool
  hasSoft : Bool
  hasMixed : Bool
  hasMerge : Bool
  hasKeep : Bool
  pathspecs : List (List Char)
deriving Repr, DecidableEq

structure CommitArgs where
  is_dry_run : Bool
  has_amend : Bool
deriving Repr, DecidableEq

/-- `post_reset_hook` (`src/src/commands/hooks/reset_hooks.rs:12-89`).  Note
that the function receives no exit status and never consults one.  The
tree-ish resolution and ancestry check are git calls, passed in as values;
`handle_reset_hard` deletes the old working log, the preserve-working-dir
path reconstructs (backward) or deletes (forward/unrelated), pathspec resets
rebuild per-pathspec (`handle_reset_pathspec_preserve_working_dir`, modelled
as one effect). -/
def post_reset_hook (args : ResetArgs)
    (pre_command_base_commit head_after resolved_tree_ish : Option (List Char))
    (is_backward : Bool) : List HookEffect :=
  match pre_command_base_commit with
  | none => []
  | some old_head_sha =>
    match head_after with
    | none => []
    | some new_head_sha =>
      match resolved_tree_ish with
      | none => []
      | some target_commit_sha =>
        if args.hasHard then
          [.deleteWorkingLog old_head_sha]
        else if args.hasSoft || args.hasMixed || args.hasMerge ||
            !(args.hasHard || args.hasSoft || args.hasMixed || args.hasMerge ||
              args.hasKeep) then
          if !args.pathspecs.isEmpty then
            [.pathspecRebuild target_commit_sha old_head_sha args.pathspecs]
          else if old_head_sha = target_commit_sha then []
          else if !is_backward then [.deleteWorkingLog old_head_sha]
          else [.reconstructWorkingLog target_commit_sha old_head_sha]
        else [] -- --keep: no-op

/-- `commit_post_command_hook` (`src/src/commands/commit_hooks.rs:35-73`):
dry runs, failed children and a missing HEAD target all return before any
effect; otherwise one rewrite-log event is handled. -/
def commit_post_command_hook (cargs : CommitArgs) (exit_success : Bool)
    (pre_command_base_commit head_target : Option (List Char)) :
    List HookEffect :=
  if cargs.is_dry_run then []
  else if !exit_success then []
  else
    match head_target with
    | none => [] -- empty repo, commit did not land
    | some new_sha =>
      if cargs.has_amend && pre_command_base_commit.isSome then
        [.commitRewriteEvent pre_command_base_commit new_sha true]
      else
        [.commitRewriteEvent pre_command_base_commit new_sha false]

inductive GitCommand where
  | commit
  | reset
  | passthrough
deriving Repr, DecidableEq

/-- `run_post_command_hooks` (`src/src/commands/git_handlers.rs:143-180`),
restricted to the two hook bodies present in the sources (`commit`, `reset`);
it is invoked unconditionally after the git child exits, and the per-command
hooks decide themselves what to do with the exit status — `post_reset_hook`
never sees it. -/
def run_post_command_hooks (command : Option GitCommand) (exit_success : Bool)
    (cargs : CommitArgs) (rargs : ResetArgs)
    (pre_command_base_commit head_after resolved_tree_ish : Option (List Char))
    (is_backward : Bool) : List HookEffect :=
  match command with
  | some .commit =>
    commit_post_command_hook cargs exit_success pre_command_base_commit head_after
  | some .reset =>
    post_reset_hook rargs pre_command_base_commit head_after resolved_tree_ish
      is_backward
  | _ => []

/-- C6 evaluated at the failing input: after `git reset --hard HEAD~1` whose
child exited *unsuccessfully*, the reset post-hook still deletes the working
log of the old HEAD (the hook never consults the exit status), while the
commit post-hook correctly performs no effect on a failed child. -/
theorem reset_post_hook_effects_despite_failed_child :
    run_post_command_hooks (some .reset) false
      ⟨false, false⟩ ⟨true, false, false, false, false, []⟩
      (some ("OLD".data)) (some ("OLD".data)) (some ("TARGET".data)) true
      = [.deleteWorkingLog ("OLD".data)] ∧
    run_post_command_hooks (some .commit) false
      ⟨false, false⟩ ⟨true, false, false, false, false, []⟩
      (some ("OLD".data)) (some ("NEW".data)) none true
      = [] := by
  decide

/-! ### C7: `get_commit_default_author`
(`src/src/commands/commit_hooks.rs:75-155`) -/

/-- `extract_author_from_args` (`src/src/commands/commit_hooks.rs:157-175`):
first `--author=<a>` or `--author <a>` wins; a trailing lone `--author` is
ignored. -/
def extract_author_from_args : List (List Char) → Option (List Char)
  | [] => none
  | arg :: rest =>
    if strStartsWith arg ("--author=".data) then some (arg.drop 9)
    else if arg = "--author".data then
      match rest with
      | next :: _ => some next
      | [] => none
    else extract_author_from_args rest

/-- The environment variables `get_commit_default_author` consults
(`std::env::var`: `none` when unset or invalid). -/
structure AuthorEnv where
  git_author_name : Option (List Char)
  git_author_email : Option (List Char)
  email : Option (List Char)
deriving Repr, DecidableEq

/-- The git config values (`config_get_str`: `none` covers both `Ok(None)`
and `Err`). -/
structure AuthorConfig where
  user_name : Option (List Char)
  user_email : Option (List Char)
deriving Repr, DecidableEq

/-- `Some(trimmed)` when the value is present and not blank. -/
def nonBlank : Option (List Char) → Option (List Char)
  | none => none
  | some s => if !(strTrim s).isEmpty then some (strTrim s) else none

/-- The name part extracted from a raw `EMAIL` value: everything before the
first `@`, untrimmed, if nonempty (`src/src/commands/commit_hooks.rs:129-136`). -/
def emailNamePart (email : List Char) : Option (List Char) :=
  if email.contains '@' then
    let name_part := email.takeWhile (fun c => c ≠ '@')
    if !name_part.isEmpty then some name_part else none
  else none

/-- Lines 89-154 of `src/src/commands/commit_hooks.rs`: the sequential
name/email resolution once `--author` did not resolve. -/
def author_from_env_and_config (env : AuthorEnv) (cfg : AuthorConfig) :
    List Char :=
  let author_name : Option (List Char) := nonBlank env.git_author_name
  let author_name : Option (List Char) :=
    match author_name with
    | some n => some n
    | none => nonBlank cfg.user_name
  let author_email : Option (List Char) := nonBlank env.git_author_email
  let author_email : Option (List Char) :=
    match author_email with
    | some e => some e
    | none => nonBlank cfg.user_email
  let pair :=
    if author_name.isNone || author_email.isNone then
      match env.email with
      | some email =>
        if !(strTrim email).isEmpty then
          let author_name :=
            if author_name.isNone then emailNamePart email else author_name
          let author_email :=
            if author_email.isNone then some (strTrim email) else author_email
          (author_name, author_email)
        else (author_name, author_email)
      | none => (author_name, author_email)
    else (author_name, author_email)
  match pair with
  | (some n, some e) => n ++ " <".data ++ e ++ [">".data.headD ' ']
  | (some n, none) => n
  | (none, some e) => e
  | (none, none) => "unknown".data

/-- `get_commit_default_author` (`src/src/commands/commit_hooks.rs:75-155`);
`resolve_author_spec` is a git call, passed in as a function (`none` covers
`Err` and `Ok(None)`). -/
def get_commit_default_author (args : List (List Char))
    (resolve_author_spec : List Char → Option (List Char))
    (env : AuthorEnv) (cfg : AuthorConfig) : List Char :=
  match (extract_author_from_args args).bind resolve_author_spec with
  | some resolved =>
    if !(strTrim resolved).isEmpty then strTrim resolved
    else author_from_env_and_config env cfg
  | none => author_from_env_and_config env cfg

/-- The author string formatted from resolved name/email parts. -/
def formatAuthor : Option (List Char) → Option (List Char) → List Char
  | some n, some e => n ++ " <".data ++ e ++ [">".data.headD ' ']
  | some n, none => n
  | none, some e => e
  | none, none => "unknown".data

/-- The precedence the claim states (spec §6 "Environment variables"):
`GIT_AUTHOR_NAME`, `GIT_AUTHOR_EMAIL`, `EMAIL` in that order, and *only after
them* the git config `user.name`/`user.email`. -/
def get_commit_default_author_claimed (env : AuthorEnv) (cfg : AuthorConfig) :
    List Char :=
  let name :=
    match nonBlank env.git_author_name with
    | some n => some n
    | none =>
      match env.email.bind emailNamePart with
      | some n => some n
      | none => nonBlank cfg.user_name
  let email :=
    match nonBlank env.git_author_email with
    | some e => some e
    | none =>
      match nonBlank env.email with
      | some e => some e
      | none => nonBlank cfg.user_email
  formatAuthor name email

/-- Counterexample to C7 as stated: with `GIT_AUTHOR_NAME`/`GIT_AUTHOR_EMAIL`
unset, `EMAIL=bob@x.com` and git config `user.name=Carol`,
`user.email=carol@y.com`, the code answers with the config values — git
config is consulted *before* the `EMAIL` variable, not after it as the claim
says. -/
theorem get_commit_default_author_config_beats_email :
    get_commit_default_author [] (fun _ => none)
      ⟨none, none, some ("bob@x.com".data)⟩
      ⟨some ("Carol".data), some ("carol@y.com".data)⟩
      = "Carol <carol@y.com>".data ∧
    get_commit_default_author_claimed
      ⟨none, none, some ("bob@x.com".data)⟩
      ⟨some ("Carol".data), some ("carol@y.com".data)⟩
      = "bob <bob@x.com>".data ∧
    ("Carol <carol@y.com>".data : List Char) ≠ "bob <bob@x.com>".data := by
  refine ⟨by decide, by decide, by decide⟩

/-- The precedence the code actually implements: for the name,
`GIT_AUTHOR_NAME`, then `user.name`, then the local part of `EMAIL`; for the
email, `GIT_AUTHOR_EMAIL`, then `user.email`, then `EMAIL`. -/
def get_commit_default_author_actual (env : AuthorEnv) (cfg : AuthorConfig) :
    List Char :=
  let name :=
    match nonBlank env.git_author_name with
    | some n => some n
    | none =>
      match nonBlank cfg.user_name with
      | some n => some n
      | none =>
        match env.email with
        | some email =>
          if !(strTrim email).isEmpty then emailNamePart email else none
        | none => none
  let email :=
    match nonBlank env.git_author_email with
    | some e => some e
    | none =>
      match nonBlank cfg.user_email with
      | some e => some e
      | none =>
        match env.email with
        | some email =>
          if !(strTrim email).isEmpty then some (strTrim email) else none
        | none => none
  formatAuthor name email

/-- C7 (amended): when no `--author` flag resolves to a non-blank author, the
human author string is computed with precedence `GIT_AUTHOR_NAME` >
`user.name` > `EMAIL` local part for the name, and `GIT_AUTHOR_EMAIL` >
`user.email` > `EMAIL` for the email — i.e. git config is consulted *before*
the `EMAIL` environment variable, and only `GIT_AUTHOR_NAME`/
`GIT_AUTHOR_EMAIL` precede it. -/
theorem get_commit_default_author_precedence (args : List (List Char))
    (resolve_author_spec : List Char → Option (List Char))
    (env : AuthorEnv) (cfg : AuthorConfig)
    (hres : Option.all (fun r => (strTrim r).isEmpty)
      ((extract_author_from_args args).bind resolve_author_spec) = true) :
    get_commit_default_author args resolve_author_spec env cfg
      = get_commit_default_author_actual env cfg := by
  have hbody : author_from_env_and_config env cfg
      = get_commit_default_author_actual env cfg := by
    unfold author_from_env_and_config get_commit_default_author_actual formatAuthor
    cases hgan : nonBlank env.git_author_name <;>
      cases hgae : nonBlank env.git_author_email <;>
      cases hun : nonBlank cfg.user_name <;>
      cases hue : nonBlank cfg.user_email <;>
      cases hem : env.email <;>
      try simp only [hgan, hgae, hun, hue, hem]
    all_goals try rfl
    all_goals (
      rename_i email
      by_cases hblank : strTrim email = [] <;>
        try simp only [hblank, List.isEmpty_nil, List.isEmpty_eq_true,
          Bool.not_true, Bool.not_false, if_true, if_false, ite_true, ite_false])
    all_goals try rfl
    all_goals try (cases hpart : emailNamePart email <;> simp [hpart, hblank])
  unfold get_commit_default_author
  cases hargs : (extract_author_from_args args).bind resolve_author_spec with
  | none => exact hbody
  | some resolved =>
    rw [hargs] at hres
    simp only [Option.all_some] at hres
    simp [hres, hbody]

/-- Witness for the amended C7: a blank-resolving `--author` falls back to
the env/config precedence; with only `user.name` and `EMAIL` set, the name
comes from the config and the email from `EMAIL`. -/
theorem get_commit_default_author_precedence_witness :
    Option.all (fun r => (strTrim r).isEmpty)
      ((extract_author_from_args [("--author=x".data)]).bind
        (fun _ => some ("  ".data))) = true ∧
    get_commit_default_author [("--author=x".data)] (fun _ => some ("  ".data))
      ⟨none, none, some ("bob@x.com".data)⟩
      ⟨some ("Carol".data), none⟩
      = "Carol <bob@x.com>".data := by
  constructor
  · decide
  · rw [get_commit_default_author_precedence [("--author=x".data)]
      (fun _ => some ("  ".data))
      ⟨none, none, some ("bob@x.com".data)⟩ ⟨some ("Carol".data), none⟩
      (by decide)]
    decide

/-! ### C8: the rewrite-event log
(`src/src/git/rewrite_log.rs:446-514`).  `RewriteLogEvent` values and their
`serde_json` codec are abstracted as a type `Event` with an encoder/decoder
pair; the claims depend only on the ordering and trimming logic. -/

/-- `MAX_EVENTS` (`src/src/git/rewrite_log.rs:447`). -/
def MAX_EVENTS : Nat := 200

/-- `deserialize_events_from_jsonl` (`src/src/git/rewrite_log.rs:450-471`):
split the file into lines, skip blank lines, skip lines the decoder rejects,
and truncate to the newest `MAX_EVENTS` (the file is newest-first). -/
def deserialize_events_from_jsonl {Event : Type}
    (dec : List Char → Option Event) (jsonl : List Char) : List Event :=
  let events := ((jsonl.splitOn '\n').filter
    (fun line => !(strTrim line).isEmpty)).filterMap dec
  events.take MAX_EVENTS

/-- `append_event_to_file` (`src/src/git/rewrite_log.rs:474-514`): the file
content is `none` when the file does not exist; the new event's line is
prepended, the re-serialized existing events follow, and the line list is
truncated to `MAX_EVENTS` before writing. -/
def append_event_to_file {Event : Type} (enc : Event → List Char)
    (dec : List Char → Option Event) (file : Option (List Char))
    (new_event : Event) : List Char :=
  let new_event_json := enc new_event
  match file with
  | none => new_event_json ++ ['\n']
  | some existing_content =>
    if (strTrim existing_content).isEmpty then new_event_json ++ ['\n']
    else
      let existing_events := deserialize_events_from_jsonl dec existing_content
      let lines := new_event_json :: existing_events.map enc
      let lines := lines.take MAX_EVENTS
      List.intercalate ['\n'] lines

theorem mem_splitOnP_sub (p : Char → Bool) :
    ∀ (c l : List Char), l ∈ c.splitOnP p → ∀ y ∈ l, y ∈ c
  | [], l, hl, y, hy => by
    rw [List.splitOnP_nil] at hl
    rcases List.mem_singleton.mp hl with rfl
    cases hy
  | x :: xs, l, hl, y, hy => by
    rw [List.splitOnP_cons] at hl
    by_cases hp : p x
    · rw [if_pos hp] at hl
      rcases List.mem_cons.mp hl with rfl | hl'
      · cases hy
      · exact List.mem_cons_of_mem x (mem_splitOnP_sub p xs l hl' y hy)
    · rw [if_neg hp] at hl
      cases hsp : xs.splitOnP p with
      | nil => exact absurd hsp (List.splitOnP_ne_nil p xs)
      | cons g gs =>
        rw [hsp, List.modifyHead_cons] at hl
        rcases List.mem_cons.mp hl with rfl | hl'
        · rcases List.mem_cons.mp hy with rfl | hy'
          · exact List.mem_cons_self y xs
          · exact List.mem_cons_of_mem x (mem_splitOnP_sub p xs g
              (by rw [hsp]; exact List.mem_cons_self g gs) y hy')
        · exact List.mem_cons_of_mem x (mem_splitOnP_sub p xs l
            (by rw [hsp]; exact List.mem_cons_of_mem g hl') y hy)

/-- A trim-empty (all-whitespace) string has only whitespace characters. -/
theorem all_ws_of_strTrim_empty (c : List Char)
    (h : (strTrim c).isEmpty = true) : ∀ y ∈ c, y.isWhitespace := by
  rw [List.isEmpty_iff] at h
  unfold strTrim at h
  have hrev : (c.dropWhile Char.isWhitespace).reverse.dropWhile Char.isWhitespace
      = [] := by
    have := congrArg List.reverse h
    rwa [List.reverse_reverse, List.reverse_nil] at this
  have halld : ∀ x ∈ c.dropWhile Char.isWhitespace, x.isWhitespace := by
    intro x hx
    exact List.dropWhile_eq_nil_iff.mp hrev x (List.mem_reverse.mpr hx)
  intro y hy
  have hy' : y ∈ c.takeWhile Char.isWhitespace ++ c.dropWhile Char.isWhitespace := by
    rw [List.takeWhile_append_dropWhile]
    exact hy
  rcases List.mem_append.mp hy' with h1 | h2
  · exact List.mem_takeWhile_imp h1
  · exact halld y h2

/-- Deserializing an all-whitespace file yields no events. -/
theorem deserialize_all_ws {Event : Type} (dec : List Char → Option Event)
    (c : List Char) (h : (strTrim c).isEmpty = true) :
    deserialize_events_from_jsonl dec c = [] := by
  unfold deserialize_events_from_jsonl
  have hlines : ((c.splitOn '\n').filter
      (fun line => !(strTrim line).isEmpty)) = [] := by
    rw [List.filter_eq_nil_iff]
    intro l hl
    have hlw : ∀ y ∈ l, y.isWhitespace := by
      intro y hy
      exact all_ws_of_strTrim_empty c h y (mem_splitOnP_sub _ c l hl y hy)
    have : l.dropWhile Char.isWhitespace = [] :=
      List.dropWhile_eq_nil_iff.mpr hlw
    have htriml : strTrim l = [] := by
      unfold strTrim
      rw [this]
      rfl
    simp [htriml]
  rw [hlines]
  rfl

/-- Decoding after encoding is the identity under a round-tripping codec. -/
theorem filterMap_dec_enc {Event : Type} (enc : Event → List Char)
    (dec : List Char → Option Event) (hdec : ∀ ev, dec (enc ev) = some ev)
    (evs : List Event) : List.filterMap (dec ∘ enc) evs = evs := by
  induction evs with
  | nil => rfl
  | cons a l ih =>
    simp only [List.filterMap_cons, Function.comp_apply, hdec a]
    rw [ih]

/-- Deserializing the re-serialization of a nonempty event list recovers its
first `MAX_EVENTS` events. -/
theorem deserialize_intercalate {Event : Type} (enc : Event → List Char)
    (dec : List Char → Option Event)
    (hdec : ∀ ev, dec (enc ev) = some ev)
    (hnl : ∀ ev, '\n' ∉ enc ev)
    (hblank : ∀ ev, (strTrim (enc ev)).isEmpty = false)
    (evs : List Event) (hne : evs ≠ []) :
    deserialize_events_from_jsonl dec (List.intercalate ['\n'] (evs.map enc))
      = evs.take MAX_EVENTS := by
  unfold deserialize_events_from_jsonl
  rw [@List.splitOn_intercalate Char (evs.map enc) _ '\n'
    (by
      intro l hl
      rcases List.mem_map.mp hl with ⟨ev, _, rfl⟩
      exact hnl ev)
    (by
      intro hcon
      exact hne (List.map_eq_nil_iff.mp hcon))]
  rw [List.filter_eq_self.mpr (by
    intro l hl
    rcases List.mem_map.mp hl with ⟨ev, _, rfl⟩
    simp [hblank ev])]
  rw [List.filterMap_map, filterMap_dec_enc enc dec hdec evs]

/-- Splitting `line ++ "\n"` gives the line and one empty piece. -/
theorem splitOn_append_newline (xs : List Char) (hnl : ('\n') ∉ xs) :
    (xs ++ ['\n']).splitOn '\n' = [xs, []] := by
  have h := @List.splitOn_intercalate Char [xs, []] _ '\n'
    (by
      intro l hl
      rcases List.mem_cons.mp hl with rfl | hl'
      · exact hnl
      · rcases List.mem_singleton.mp hl' with rfl
        simp)
    (by simp)
  rwa [show List.intercalate ['\n'] [xs, []] = xs ++ ['\n'] by
    simp [List.intercalate, List.intersperse]] at h

/-- C8: after `append_event_to_file` succeeds, the file holds events in
newest-first order with the newly appended event first, trimmed to at most
`MAX_EVENTS = 200` events; and the same cap is applied on every read. -/
theorem append_event_to_file_spec {Event : Type} (enc : Event → List Char)
    (dec : List Char → Option Event)
    (hdec : ∀ ev, dec (enc ev) = some ev)
    (hnl : ∀ ev, '\n' ∉ enc ev)
    (hblank : ∀ ev, (strTrim (enc ev)).isEmpty = false) :
    (∀ (file : Option (List Char)) (e : Event),
      deserialize_events_from_jsonl dec (append_event_to_file enc dec file e)
        = (e :: (match file with
            | none => []
            | some c => deserialize_events_from_jsonl dec c)).take MAX_EVENTS) ∧
    (∀ s, (deserialize_events_from_jsonl dec s).length ≤ MAX_EVENTS) := by
  have hsingle : ∀ (e : Event),
      deserialize_events_from_jsonl dec (enc e ++ ['\n']) = [e] := by
    intro e
    unfold deserialize_events_from_jsonl
    rw [show (enc e ++ ['\n']).splitOn '\n' = [enc e, []] from
      splitOn_append_newline (enc e) (hnl e)]
    rw [show List.filter (fun line => !(strTrim line).isEmpty) [enc e, []]
        = [enc e] by
      rw [List.filter_cons,
        if_pos (show (!(strTrim (enc e)).isEmpty) = true by rw [hblank e]; rfl)]
      rfl]
    simp [List.filterMap_cons, hdec e, MAX_EVENTS]
  constructor
  · intro file e
    cases file with
    | none =>
      rw [show append_event_to_file enc dec none e = enc e ++ ['\n'] from rfl,
        hsingle e]
      rfl
    | some c =>
      have happ : append_event_to_file enc dec (some c) e
          = if (strTrim c).isEmpty then enc e ++ ['\n']
            else List.intercalate ['\n']
              ((enc e :: (deserialize_events_from_jsonl dec c).map enc).take
                MAX_EVENTS) := rfl
      show deserialize_events_from_jsonl dec
          (append_event_to_file enc dec (some c) e)
        = (e :: deserialize_events_from_jsonl dec c).take MAX_EVENTS
      by_cases hc : (strTrim c).isEmpty = true
      · rw [happ, if_pos hc]
        rw [hsingle e, deserialize_all_ws dec c hc]
        rfl
      · rw [happ, if_neg hc]
        rw [show (enc e :: (deserialize_events_from_jsonl dec c).map enc).take
              MAX_EVENTS
            = ((e :: deserialize_events_from_jsonl dec c).take MAX_EVENTS).map
              enc by
          rw [List.map_take]
          rfl]
        rw [deserialize_intercalate enc dec hdec hnl hblank _
          (by
            intro hcon
            have := congrArg List.length hcon
            simp [MAX_EVENTS] at this)]
        rw [List.take_take]
        rfl
  · intro s
    unfold deserialize_events_from_jsonl
    exact le_trans (Nat.le_of_eq (List.length_take _ _)) (Nat.min_le_left _ _)

/-- Toy codec for the C8 witness. -/
def encB : Bool → List Char
  | true => "1".data
  | false => "0".data

def decB (l : List Char) : Option Bool :=
  if l = "1".data then some true else if l = "0".data then some false else none

/-- Witness for C8: appending `false` to a file holding `1` yields a file
reading back `[false, true]` (newest first), and reads are capped. -/
theorem append_event_to_file_spec_witness :
    deserialize_events_from_jsonl decB
      (append_event_to_file encB decB (some ("1\n".data)) false)
      = [false, true] ∧
    (deserialize_events_from_jsonl decB ("0\n1".data)).length ≤ MAX_EVENTS := by
  obtain ⟨h1, h2⟩ := append_event_to_file_spec encB decB
    (by decide) (by decide) (by decide)
  constructor
  · rw [h1 (some ("1\n".data)) false]
    decide
  · exact h2 ("0\n1".data)

/-! ### C9: cumulative per-checkpoint line stats
(`src/src/commands/checkpoint.rs:660-751`, call site lines 240-244).
Filesystem reads, blob lookups and the `similar`-crate diff are oracle
parameters; the accumulation logic is embedded verbatim. -/

/-- `CheckpointKind` (`src/src/commands/checkpoint.rs`). -/
inductive CheckpointKind
  | Human
  | AiAgent
  | AiTab
deriving DecidableEq, Repr

/-- `CheckpointLineStats` (`src/src/authorship/working_log.rs`): six `u32`
counters, all zero by default. -/
structure CheckpointLineStats where
  human_additions : Nat := 0
  human_deletions : Nat := 0
  ai_agent_additions : Nat := 0
  ai_agent_deletions : Nat := 0
  ai_tab_additions : Nat := 0
  ai_tab_deletions : Nat := 0
deriving DecidableEq, Repr

/-- The slice of `Checkpoint` that `compute_line_stats` reads: the
file → blob-sha entries and the stored `line_stats`. -/
structure CkptForStats where
  entries : List (List Char × List Char)
  line_stats : CheckpointLineStats
deriving Repr

/-- `HashMap::insert` on an association list: overwrite any earlier binding. -/
def insertHash (m : List (List Char × List Char)) (k v : List Char) :
    List (List Char × List Char) :=
  (m.filter (fun p => !(p.1 = k : Bool))) ++ [(k, v)]

/-- `HashMap::get` on the association list built by `insertHash`. -/
def lookupHash (m : List (List Char × List Char)) (k : List Char) :
    Option (List Char) :=
  (m.find? (fun p => p.1 = k)).map (·.2)

/-- The `previous_file_hashes` map (`src/src/commands/checkpoint.rs:672-678`):
file → most recent blob_sha across all previous checkpoints. -/
def previous_file_hashes (cps : List CkptForStats) :
    List (List Char × List Char) :=
  cps.foldl (fun m cp =>
    cp.entries.foldl (fun m e => insertHash m e.1 e.2) m) []

/-- Previous content for one file (`src/src/commands/checkpoint.rs:688-715`):
the stored blob if the file was checkpointed before, else the HEAD version
(the oracle `head_content` folds every failure branch into the empty string,
as the source does with `String::new()`). -/
def previousContentFor (hashes : List (List Char × List Char))
    (get_file_version : List Char → Option (List Char))
    (head_content : List Char → List Char) (file : List Char) : List Char :=
  match lookupHash hashes file with
  | some prev_hash => (get_file_version prev_hash).getD []
  | none => head_content file

/-- Add an addition/deletion total into the bucket selected by the
checkpoint kind (`src/src/commands/checkpoint.rs:732-748`). -/
def bucketAdd (kind : CheckpointKind) (stats : CheckpointLineStats)
    (adds dels : Nat) : CheckpointLineStats :=
  match kind with
  | .Human => { stats with
      human_additions := stats.human_additions + adds,
      human_deletions := stats.human_deletions + dels }
  | .AiAgent => { stats with
      ai_agent_additions := stats.ai_agent_additions + adds,
      ai_agent_deletions := stats.ai_agent_deletions + dels }
  | .AiTab => { stats with
      ai_tab_additions := stats.ai_tab_additions + adds,
      ai_tab_deletions := stats.ai_tab_deletions + dels }

/-- `compute_line_stats` (`src/src/commands/checkpoint.rs:660-751`).
`read_file` is `fs::read_to_string(...).unwrap_or_else(|_| String::new())`;
`diffCounts prev cur` is the `(insertions, deletions)` line count of
`TextDiff::from_lines(prev, cur)`. -/
def compute_line_stats (get_file_version : List Char → Option (List Char))
    (head_content read_file : List Char → List Char)
    (diffCounts : List Char → List Char → Nat × Nat)
    (files : List (List Char)) (previous_checkpoints : List CkptForStats)
    (kind : CheckpointKind) : CheckpointLineStats :=
  let stats := ((previous_checkpoints.getLast?).map (·.line_stats)).getD {}
  let hashes := previous_file_hashes previous_checkpoints
  let totals := files.foldl (fun (acc : Nat × Nat) file_path =>
    let current_content := read_file file_path
    let previous_content :=
      previousContentFor hashes get_file_version head_content file_path
    let d := diffCounts previous_content current_content
    (acc.1 + d.1, acc.2 + d.2)) (0, 0)
  bucketAdd kind stats totals.1 totals.2

/-- Componentwise order on the six counters. -/
def CheckpointLineStats.le (a b : CheckpointLineStats) : Prop :=
  a.human_additions ≤ b.human_additions ∧
  a.human_deletions ≤ b.human_deletions ∧
  a.ai_agent_additions ≤ b.ai_agent_additions ∧
  a.ai_agent_deletions ≤ b.ai_agent_deletions ∧
  a.ai_tab_additions ≤ b.ai_tab_additions ∧
  a.ai_tab_deletions ≤ b.ai_tab_deletions

theorem bucketAdd_le (kind : CheckpointKind) (stats : CheckpointLineStats)
    (adds dels : Nat) :
    CheckpointLineStats.le stats (bucketAdd kind stats adds dels) := by
  cases kind <;>
    exact ⟨by simp [bucketAdd], by simp [bucketAdd], by simp [bucketAdd],
      by simp [bucketAdd], by simp [bucketAdd], by simp [bucketAdd]⟩

/-- C9: each new checkpoint's line stats start from the last previous
checkpoint's stats (or all-zero when there is none) and only add the
per-kind totals into that kind's bucket, so every counter is
monotonically non-decreasing from one checkpoint to the next. -/
theorem compute_line_stats_cumulative
    (get_file_version : List Char → Option (List Char))
    (head_content read_file : List Char → List Char)
    (diffCounts : List Char → List Char → Nat × Nat)
    (files : List (List Char)) (previous_checkpoints : List CkptForStats)
    (kind : CheckpointKind) :
    (∃ adds dels : Nat,
      compute_line_stats get_file_version head_content read_file diffCounts
          files previous_checkpoints kind
        = bucketAdd kind
            (((previous_checkpoints.getLast?).map (·.line_stats)).getD {})
            adds dels) ∧
    CheckpointLineStats.le
      (((previous_checkpoints.getLast?).map (·.line_stats)).getD {})
      (compute_line_stats get_file_version head_content read_file diffCounts
        files previous_checkpoints kind) := by
  constructor
  · exact ⟨_, _, rfl⟩
  · exact bucketAdd_le kind _ _ _

/-! ### C10: `Repository::head`
(`src/src/git/repository.rs:780-801`).  The child process is abstracted as
its observable outcome: whether `exec_git` itself failed, the exit status,
and the UTF-8 decoding of stdout (`none` when the bytes are not valid
UTF-8, in which case `String::from_utf8(output.stdout)?` propagates a
`FromUtf8Error`). -/

/-- The outcome of `exec_git(["symbolic-ref", "HEAD"])` that `head` reads:
exit status and the UTF-8 decoding of stdout. -/
structure ExecResult where
  success : Bool
  stdout_utf8 : Option (List Char)
deriving DecidableEq, Repr

/-- `Repository::head` (`src/src/git/repository.rs:780-801`): on a
successful child with decodable stdout, the trimmed refname; on a failed
`exec_git` or unsuccessful exit, the literal `"HEAD"`; on a successful
child with non-UTF-8 stdout, the `?` on `String::from_utf8` propagates an
error. -/
def Repository.head (output : Except (List Char) ExecResult) :
    Except (List Char) (List Char) :=
  match output with
  | .ok o =>
    if o.success then
      match o.stdout_utf8 with
      | some s => .ok (strTrim s)
      | none => .error ("invalid utf-8 sequence".data)
    else .ok ("HEAD".data)
  | .error _ => .ok ("HEAD".data)

/-- Whether an `Except` is `ok`. -/
def exceptIsOk {ε α : Type} : Except ε α → Bool
  | .ok _ => true
  | .error _ => false

/-- Counterexample to C10 as stated: a successful `git symbolic-ref` whose
stdout is not valid UTF-8 makes `Repository::head` return an error, so
`head` is not total in the error monad. -/
theorem head_err_on_invalid_utf8 :
    exceptIsOk (Repository.head (.ok ⟨true, none⟩)) = false := by
  decide

/-- C10 (amended): `Repository::head` returns `Ok` for every child outcome
except a successful `git symbolic-ref` with non-UTF-8 stdout: a failed
`exec_git` or an unsuccessful exit (detached HEAD, empty repository) falls
back to the literal refname `"HEAD"`, a successful decodable run yields
the trimmed refname, and only the non-UTF-8 case propagates an error. -/
theorem head_fallback_policy (output : Except (List Char) ExecResult) :
    (∀ e, output = .error e →
      Repository.head output = .ok ("HEAD".data)) ∧
    (∀ o, output = .ok o → o.success = false →
      Repository.head output = .ok ("HEAD".data)) ∧
    (∀ o s, output = .ok o → o.success = true → o.stdout_utf8 = some s →
      Repository.head output = .ok (strTrim s)) ∧
    (∀ o, output = .ok o → o.success = true → o.stdout_utf8 = none →
      ∃ e, Repository.head output = .error e) := by
  refine ⟨?_, ?_, ?_, ?_⟩
  · intro e he
    rw [he]
    rfl
  · intro o ho hs
    rw [ho]
    simp [Repository.head, hs]
  · intro o s ho hs hu
    rw [ho]
    simp [Repository.head, hs, hu]
  · intro o ho hs hu
    rw [ho]
    exact ⟨("invalid utf-8 sequence".data), by simp [Repository.head, hs, hu]⟩

/-- Witness for C10 (amended), instantiating every branch: a failed exec
falls back to `"HEAD"`, an unsuccessful exit falls back to `"HEAD"`, a
successful run returns the trimmed refname, and non-UTF-8 stdout errors. -/
theorem head_fallback_policy_witness :
    Repository.head (.error ("boom".data)) = .ok ("HEAD".data) ∧
    Repository.head (.ok ⟨false, some ("x".data)⟩) = .ok ("HEAD".data) ∧
    Repository.head (.ok ⟨true, some ("refs/heads/main\n".data)⟩)
      = .ok ("refs/heads/main".data) ∧
    ∃ e, Repository.head (.ok ⟨true, none⟩) = .error e := by
  refine ⟨?_, ?_, ?_, ?_⟩
  · exact (head_fallback_policy (.error ("boom".data))).1 _ rfl
  · exact (head_fallback_policy (.ok ⟨false, some ("x".data)⟩)).2.1 _ rfl rfl
  · have h := (head_fallback_policy
      (.ok ⟨true, some ("refs/heads/main\n".data)⟩)).2.2.1 _ _ rfl rfl rfl
    rw [h, show strTrim ("refs/heads/main\n".data) = "refs/heads/main".data
      from by decide]
  · exact (head_fallback_policy (.ok ⟨true, none⟩)).2.2.2 _ rfl rfl rfl

end GitAi
